import Mathlib

/-!
# Verification of the table renderer (`tables/src/lib.rs`)

Shallow embedding of the functions `visible_width`,
`package_characters_with_escapes`, `package_characters_with_escapes_char`
and `print_tabular_vbox` from `tables/src/lib.rs`, together with theorems
settling the specification claims about them.

Rust `String` cell values are modelled as `List Char` (the code only ever
iterates over `chars()` or compares with ASCII literals, so this is exact);
Rust byte slices are modelled as `List Nat`.  Fallible operations (the
`fail!` shape check, the `assert!` calls in the justify parser, and slice
index panics) are modelled with `Except VboxError`.
-/

namespace Tables

/-- A table cell: the character sequence of a Rust `String`. -/
abbrev Cell := List Char

/-- A table row. -/
abbrev Row := List Cell

/-- The ASCII escape character `\x1b`, the escape-sequence opener. -/
def escChar : Char := Char.ofNat 27

/-- The continuation sentinel `"\ext"`. -/
def extCell : Cell := "\\ext".data

/-- The rule sentinel `"\hline"`. -/
def hlineCell : Cell := "\\hline".data

/-- The bold-rule sentinel `"\hline_bold"`. -/
def hlineBoldCell : Cell := "\\hline_bold".data

/-!
## `visible_width` (lib.rs lines 110-129)

The Rust loop carries the state `(n, escaped)`; `visLoopP` is that loop,
returning the final state, and `visible_width` takes the final `n`.
-/

/-- The scanning loop of `visible_width` (lib.rs lines 114-127), state `(n, escaped)`. -/
def visLoopP : Nat × Bool → List Char → Nat × Bool
  | s, [] => s
  | (n, escaped), c :: cs =>
    if escaped = true ∧ c ≠ 'm' then visLoopP (n, escaped) cs
    else if c = escChar then visLoopP (n, true) cs
    else if escaped = true ∧ c = 'm' then visLoopP (n, false) cs
    else if c = '✅' then visLoopP (n + 2, escaped) cs
    else visLoopP (n + 1, escaped) cs

/-- `visible_width` (lib.rs lines 110-129). -/
def visible_width (s : Cell) : Nat :=
  if s = extCell ∨ s = hlineCell ∨ s = hlineBoldCell then 0
  else (visLoopP (0, false) s).1

/-!
## Reference definition of the visible width, from the spec's words (§4.1)

* the three sentinel tokens have width 0;
* a recognized escape-sequence opener begins a suppressed region: every
  character up to and including the next terminator `'m'` contributes 0
  (when no terminator occurs before the end of the string, the remainder
  of the string is left suppressed — the pinned choice of §4.1/§9);
* the code point `'✅'` (the fixed wide set) counts as 2;
* every other scalar character counts as 1.
-/

mutual

/-- Reference scan, following the spec's words: each ordinary scalar counts
as 1, `'✅'` as 2, and a recognized opener starts a suppressed region. -/
def specScan : List Char → Nat
  | [] => 0
  | c :: cs =>
    if c = escChar then specSuppress cs
    else (if c = '✅' then 2 else 1) + specScan cs

/-- A suppressed region: every character up to and including the terminator
`'m'` contributes 0; with no terminator the rest of the string stays
suppressed (the pinned choice of §4.1/§9). -/
def specSuppress : List Char → Nat
  | [] => 0
  | c :: cs => if c = 'm' then specScan cs else specSuppress cs

end

/-- Reference definition of the visible width, from the spec's words. -/
def visibleWidthSpec (s : Cell) : Nat :=
  if s = extCell ∨ s = hlineCell ∨ s = hlineBoldCell then 0
  else specScan s

theorem escChar_ne_m : escChar ≠ 'm' := by decide

theorem m_ne_escChar : ('m' : Char) ≠ escChar := by decide

theorem wide_ne_escChar : ('✅' : Char) ≠ escChar := by decide

theorem visLoopP_cons_open (n : Nat) (e : Bool) (cs : List Char) :
    visLoopP (n, e) (escChar :: cs) = visLoopP (n, true) cs := by
  cases e <;> simp [visLoopP, escChar_ne_m]

theorem visLoopP_cons_term (n : Nat) (cs : List Char) :
    visLoopP (n, true) ('m' :: cs) = visLoopP (n, false) cs := by
  simp [visLoopP, m_ne_escChar]

theorem visLoopP_cons_esc (n : Nat) {c : Char} (cs : List Char) (h : c ≠ 'm') :
    visLoopP (n, true) (c :: cs) = visLoopP (n, true) cs := by
  simp [visLoopP, h]

theorem visLoopP_cons_wide (n : Nat) (cs : List Char) :
    visLoopP (n, false) ('✅' :: cs) = visLoopP (n + 2, false) cs := by
  simp [visLoopP, wide_ne_escChar]

theorem visLoopP_cons_other (n : Nat) {c : Char} (cs : List Char)
    (h1 : c ≠ escChar) (h2 : c ≠ '✅') :
    visLoopP (n, false) (c :: cs) = visLoopP (n + 1, false) cs := by
  simp [visLoopP, h1, h2]

theorem visLoopP_spec (cs : List Char) :
    (∀ n, (visLoopP (n, false) cs).1 = n + specScan cs) ∧
    (∀ n, (visLoopP (n, true) cs).1 = n + specSuppress cs) := by
  induction cs with
  | nil => simp [visLoopP, specScan, specSuppress]
  | cons c cs ih =>
    constructor
    · intro n
      by_cases hesc : c = escChar
      · subst hesc
        rw [visLoopP_cons_open, ih.2 n, specScan]
        simp
      · by_cases hw : c = '✅'
        · subst hw
          rw [visLoopP_cons_wide, ih.1 (n + 2), specScan]
          simp [wide_ne_escChar]
          omega
        · rw [visLoopP_cons_other n cs hesc hw, ih.1 (n + 1), specScan]
          simp [hesc, hw]
          omega
    · intro n
      by_cases hm : c = 'm'
      · subst hm
        rw [visLoopP_cons_term, ih.1 n, specSuppress]
        simp
      · rw [visLoopP_cons_esc n cs hm, ih.2 n, specSuppress]
        simp [hm]

/-- **C6.** `visible_width` equals the reference definition assembled from the
spec's words: sentinels have width 0, a recognized escape opener suppresses
everything up to and including its terminator, `'✅'` counts as 2, and every
other scalar character counts as 1 (an unterminated opener leaves the rest of
the string suppressed, the pinned choice of §4.1/§9). -/
theorem visible_width_eq_spec (s : Cell) : visible_width s = visibleWidthSpec s := by
  unfold visible_width visibleWidthSpec
  by_cases hs : s = extCell ∨ s = hlineCell ∨ s = hlineBoldCell
  · simp [hs]
  · simp only [hs, if_false]
    simpa using (visLoopP_spec s).1 0

/-- **C7 counterexample.** The claim says an unterminated escape opener and the
characters after it are treated as ordinary characters, which would give the
two-character string `⟨ESC⟩a` visible width 2; the code instead suppresses
from the opener to the end of the string and returns 0. -/
theorem visible_width_unterminated_cex :
    visible_width [escChar, 'a'] = 0 ∧ visible_width [escChar, 'a'] ≠ 2 := by
  constructor
  · decide
  · decide

theorem visLoopP_append (s : Nat × Bool) (u v : List Char) :
    visLoopP s (u ++ v) = visLoopP (visLoopP s u) v := by
  induction u generalizing s with
  | nil => simp [visLoopP]
  | cons c u ih =>
    obtain ⟨n, e⟩ := s
    simp only [List.cons_append, visLoopP]
    split
    · exact ih _
    · split
      · exact ih _
      · split
        · exact ih _
        · split
          · exact ih _
          · exact ih _

theorem visLoopP_no_term (v : List Char) (n : Nat) (hm : 'm' ∉ v) :
    visLoopP (n, true) v = (n, true) := by
  induction v with
  | nil => simp [visLoopP]
  | cons c v ih =>
    have hc : c ≠ 'm' := by
      intro h
      exact hm (h ▸ List.mem_cons_self c v)
    have hv : 'm' ∉ v := fun h => hm (List.mem_cons_of_mem c h)
    simp [visLoopP, hc, ih hv]

theorem escChar_not_mem_sentinels :
    escChar ∉ extCell ∧ escChar ∉ hlineCell ∧ escChar ∉ hlineBoldCell := by
  decide

/-- **C7 amended.** For a string containing an escape opener with no
terminator `'m'` after it, `visible_width` suppresses the opener and every
following character: the result is exactly the scan value of the part before
the opener (each suppressed character contributes 0, not its ordinary width). -/
theorem visible_width_unterminated (u v : List Char) (hm : 'm' ∉ v) :
    visible_width (u ++ escChar :: v) = (visLoopP (0, false) u).1 := by
  have hmem : escChar ∈ u ++ escChar :: v :=
    List.mem_append_right u (List.mem_cons_self _ _)
  have hsent : ¬(u ++ escChar :: v = extCell ∨ u ++ escChar :: v = hlineCell ∨
      u ++ escChar :: v = hlineBoldCell) := by
    rintro (h | h | h)
    · exact escChar_not_mem_sentinels.1 (h ▸ hmem)
    · exact escChar_not_mem_sentinels.2.1 (h ▸ hmem)
    · exact escChar_not_mem_sentinels.2.2 (h ▸ hmem)
  unfold visible_width
  rw [if_neg hsent, visLoopP_append]
  rcases hu : visLoopP (0, false) u with ⟨n, e⟩
  rw [visLoopP_cons_open, visLoopP_no_term v n hm]

/-- Witness for `visible_width_unterminated` at `u = ['a']`, `v = ['b']`. -/
theorem visible_width_unterminated_witness :
    'm' ∉ ['b'] ∧ visible_width (['a'] ++ escChar :: ['b']) = (visLoopP (0, false) ['a']).1 :=
  ⟨by decide, visible_width_unterminated ['a'] ['b'] (by decide)⟩

/-!
## `package_characters_with_escapes` and `package_characters_with_escapes_char`
(lib.rs lines 14-34 and 36-56)

The two Rust functions are character-for-character identical up to the element
type (`u8` with `b'\x1b'`/`b'm'` versus `char` with `'\x1b'`/`'m'`), so the
loop `pkgGo` is embedded once, parameterized by the element type, the escape
opener and the terminator.  Loop state: remaining input, `escaped`, the
current `package`, and the accumulated output `x`.
-/

/-- The loop shared by both packaging functions. -/
def pkgGo {α : Type} [DecidableEq α] (escv mv : α) :
    List α → Bool → List α → List (List α) → List (List α)
  | [], _, _, x => x
  | b :: rest, escaped, package, x =>
    if escaped = true ∧ b ≠ mv then pkgGo escv mv rest escaped (package ++ [b]) x
    else if b = escv then pkgGo escv mv rest true (package ++ [b]) x
    else if escaped = true ∧ b = mv then pkgGo escv mv rest false (package ++ [b]) x
    else pkgGo escv mv rest escaped [] (x ++ [package ++ [b]])

/-- `package_characters_with_escapes` (lib.rs lines 14-34); bytes as `Nat`,
`b'\x1b' = 27`, `b'm' = 109`. -/
def package_characters_with_escapes (c : List Nat) : List (List Nat) :=
  pkgGo 27 109 c false [] []

/-- `package_characters_with_escapes_char` (lib.rs lines 36-56). -/
def package_characters_with_escapes_char (c : List Char) : List (List Char) :=
  pkgGo escChar 'm' c false [] []

/-- The final value of the loop's `package` accumulator on the same input:
branch-for-branch identical to `pkgGo`, but returning the `package` component
of the final state instead of the output `x`.  This is the pending package
that the Rust loop silently discards when the input ends before the next
visible character would have flushed it. -/
def pkgPend {α : Type} [DecidableEq α] (escv mv : α) :
    List α → Bool → List α → List α
  | [], _, package => package
  | b :: rest, escaped, package =>
    if escaped = true ∧ b ≠ mv then pkgPend escv mv rest escaped (package ++ [b])
    else if b = escv then pkgPend escv mv rest true (package ++ [b])
    else if escaped = true ∧ b = mv then pkgPend escv mv rest false (package ++ [b])
    else pkgPend escv mv rest escaped []

/-- The pending package `package_characters_with_escapes_char` drops. -/
def pendingPackageChar (c : List Char) : List Char :=
  pkgPend escChar 'm' c false []

/-- The pending package `package_characters_with_escapes` drops. -/
def pendingPackageByte (d : List Nat) : List Nat :=
  pkgPend 27 109 d false []

/-- Runs the loop's escape automaton over a string in isolation, starting in
escape state `e`.  Returns `some e2` (the final state) when every character
of the string is consumed by the escape machinery without ever flushing a
package — that is, when the string is a run of escape-sequence characters
containing no visible character — and `none` as soon as a character would
have been flushed as a visible package. -/
def escRunFrom {α : Type} [DecidableEq α] (escv mv : α) : Bool → List α → Option Bool
  | e, [] => some e
  | false, b :: r => if b = escv then escRunFrom escv mv true r else none
  | true, b :: r =>
    if b = mv then escRunFrom escv mv false r else escRunFrom escv mv true r

theorem escRunFrom_append {α : Type} [DecidableEq α] (escv mv : α) (p : List α) :
    ∀ (e : Bool) (q : List α),
      escRunFrom escv mv e (p ++ q)
        = (escRunFrom escv mv e p).bind (fun e2 => escRunFrom escv mv e2 q) := by
  induction p with
  | nil => intro e q; simp [escRunFrom]
  | cons b p ih =>
    intro e q
    cases e with
    | false =>
      by_cases hb : b = escv
      · simp only [List.cons_append, escRunFrom, if_pos hb]
        exact ih true q
      · simp only [List.cons_append, escRunFrom, if_neg hb]
        rfl
    | true =>
      by_cases hb : b = mv
      · simp only [List.cons_append, escRunFrom, if_pos hb]
        exact ih false q
      · simp only [List.cons_append, escRunFrom, if_neg hb]
        exact ih true q

/-- Loop invariant: the pending `package` is always a flush-free escape run
whose automaton state agrees with the loop's `escaped` flag, so the final
pending package is a run of escape-sequence characters with no visible
character in it. -/
theorem pkgPend_escRun {α : Type} [DecidableEq α] (escv mv : α) (hne : escv ≠ mv)
    (rest : List α) :
    ∀ (e : Bool) (p : List α), escRunFrom escv mv false p = some e →
      (escRunFrom escv mv false (pkgPend escv mv rest e p)).isSome = true := by
  induction rest with
  | nil =>
    intro e p hp
    simp [pkgPend, hp]
  | cons b rest ih =>
    intro e p hp
    rw [pkgPend]
    by_cases h1 : e = true ∧ b ≠ mv
    · rw [if_pos h1]
      obtain ⟨he, hbm⟩ := h1
      subst he
      refine ih true (p ++ [b]) ?_
      rw [escRunFrom_append escv mv p false [b], hp]
      simp [escRunFrom, hbm]
    · rw [if_neg h1]
      by_cases h2 : b = escv
      · rw [if_pos h2]
        have he : e = false := by
          cases e with
          | false => rfl
          | true => exact absurd ⟨rfl, fun hbm => hne (h2.symm.trans hbm)⟩ h1
        subst he
        refine ih true (p ++ [b]) ?_
        rw [escRunFrom_append escv mv p false [b], hp]
        simp [escRunFrom, h2]
      · rw [if_neg h2]
        by_cases h3 : e = true ∧ b = mv
        · rw [if_pos h3]
          obtain ⟨he, hbm⟩ := h3
          subst he
          refine ih false (p ++ [b]) ?_
          rw [escRunFrom_append escv mv p false [b], hp]
          simp [escRunFrom, hbm]
        · rw [if_neg h3]
          have he : e = false := by
            cases e with
            | false => rfl
            | true =>
              by_cases hbm : b = mv
              · exact absurd ⟨rfl, hbm⟩ h3
              · exact absurd ⟨rfl, hbm⟩ h1
          subst he
          exact ih false [] rfl

/-- Exact accounting of the loop: the flushed packages concatenated with the
final pending package reconstruct the entire state — accumulated output,
current package and remaining input — with nothing else lost or reordered. -/
theorem pkgGo_flatten_pend {α : Type} [DecidableEq α] (escv mv : α) (rest : List α) :
    ∀ (e : Bool) (p : List α) (x : List (List α)),
      (pkgGo escv mv rest e p x).flatten ++ pkgPend escv mv rest e p
        = x.flatten ++ p ++ rest := by
  induction rest with
  | nil =>
    intro e p x
    simp [pkgGo, pkgPend]
  | cons b rest ih =>
    intro e p x
    rw [pkgGo, pkgPend]
    by_cases h1 : e = true ∧ b ≠ mv
    · rw [if_pos h1, if_pos h1, ih e (p ++ [b]) x]
      simp
    · rw [if_neg h1, if_neg h1]
      by_cases h2 : b = escv
      · rw [if_pos h2, if_pos h2, ih true (p ++ [b]) x]
        simp
      · rw [if_neg h2, if_neg h2]
        by_cases h3 : e = true ∧ b = mv
        · rw [if_pos h3, if_pos h3, ih false (p ++ [b]) x]
          simp
        · rw [if_neg h3, if_neg h3, ih e [] (x ++ [p ++ [b]])]
          simp

/-- **C9 counterexample.**  On the one-character input `[ESC]` the packaging
loop never flushes its pending package, so the returned list of packages is
empty and concatenating the packages loses the escape character instead of
restoring the input. -/
theorem package_characters_roundtrip_cex :
    package_characters_with_escapes_char [escChar] = [] ∧
    (package_characters_with_escapes_char [escChar]).flatten ≠ [escChar] := by
  constructor
  · decide
  · decide

/-- **C9 amended.**  Concatenating the packages returned by
`package_characters_with_escapes_char` (and by the byte-level variant
`package_characters_with_escapes`), followed by the loop's final pending
package, restores the original sequence exactly, in order with no characters
reordered; so the only loss is that trailing pending package, and it is a
run of escape-sequence characters containing no visible character
(escape-sequence characters at the end of the input that are not followed
by a visible character). -/
theorem package_characters_roundtrip :
    (∀ c : List Char,
      (package_characters_with_escapes_char c).flatten ++ pendingPackageChar c = c ∧
      (escRunFrom escChar 'm' false (pendingPackageChar c)).isSome = true) ∧
    (∀ d : List Nat,
      (package_characters_with_escapes d).flatten ++ pendingPackageByte d = d ∧
      (escRunFrom 27 109 false (pendingPackageByte d)).isSome = true) :=
  ⟨fun c =>
    ⟨by simpa using pkgGo_flatten_pend escChar 'm' c false [] [],
     pkgPend_escRun escChar 'm' (by decide) c false [] rfl⟩,
   fun d =>
    ⟨by simpa using pkgGo_flatten_pend 27 109 d false [] [],
     pkgPend_escRun 27 109 (by decide) d false [] rfl⟩⟩

/-!
## `print_tabular_vbox`: data model and failure modes

The Rust function takes `log: &mut String` — it appends the rendered table to
whatever `log` already holds, later re-reads the *whole* buffer into the
smoothing matrix and finally rewrites the buffer from that matrix.  The
embedding therefore takes the previous buffer contents as an explicit
argument and returns the final buffer contents.  `fail!`, the `assert!`s of
the justify parser, and slice index panics abort the process; they are
modelled as `Except` errors.
-/

/-- Rendering options (lib.rs lines 160-164). -/
structure VboxOptions where
  bold_box : Bool := false
  bold_outer : Bool := false
deriving DecidableEq

/-- The ways `print_tabular_vbox` can abort. -/
inductive VboxError where
  /-- the `fail!` at lib.rs lines 177-183: row `i` has length `leni` but row 0 has length `len0` -/
  | shape (i leni len0 : Nat)
  /-- `fail!`: justify may not start with `|` or `!` (lines 231-233, 241-243) -/
  | justifyStart
  /-- `assert!(count < ncols)` in the justify parser (lines 238, 248) -/
  | justifyPos
  /-- `assert_eq!(just.len(), ncols)` (line 272) -/
  | justifyCount (njust ncols : Nat)
  /-- an out-of-range slice index or usize underflow: a Rust panic -/
  | indexPanic
  /-- fuel ran out: would mark a diverging solver loop (never actually
  reachable, see `solverLoop_terminates`; the fuel passed by `solverRun`
  always suffices) -/
  | fuelExhausted
deriving DecidableEq

/-!
### Box-drawing characters (lib.rs lines 190-215)
-/

def dashC (opt : VboxOptions) : Char := if opt.bold_box = false then '─' else '━'

def dashBold : Char := '━'

def vertyC (opt : VboxOptions) : Char := if opt.bold_box = false then '│' else '┃'

def vertyBold : Char := '┃'

def topleftC (opt : VboxOptions) : Char := if opt.bold_box = false then '┌' else '┏'

def topleftBold : Char := '┏'

def toprightC (opt : VboxOptions) : Char := if opt.bold_box = false then '┐' else '┓'

def toprightBold : Char := '┓'

def botleftC (opt : VboxOptions) : Char := if opt.bold_box = false then '└' else '┗'

def botleftBold : Char := '┗'

def botrightC (opt : VboxOptions) : Char := if opt.bold_box = false then '┘' else '┛'

def botrightBold : Char := '┛'

def teeC (opt : VboxOptions) : Char := if opt.bold_box = false then '┬' else '┳'

def teeBold : Char := '┳'

def upteeC (opt : VboxOptions) : Char := if opt.bold_box = false then '┴' else '┻'

def upteeBold : Char := '┻'

def crossC (opt : VboxOptions) : Char := if opt.bold_box = false then '┼' else '╋'

def crossBoldBold : Char := '╋'

def crossBold1 : Char := '╂'

def crossBold2 : Char := '┿'

def leftyC (opt : VboxOptions) : Char := if opt.bold_box = false then '├' else '┣'

def leftyBoldBold : Char := '┣'

def leftyBold1 : Char := '┠'

def rightyC (opt : VboxOptions) : Char := if opt.bold_box = false then '┤' else '┫'

def rightyBoldBold : Char := '┫'

def rightyBold1 : Char := '┨'

/-!
### Shape check (lib.rs lines 177-183) and `ncols` (lines 221-224)
-/

/-- The row-length check: the first `i ≥ 1` with `rows[i].len() != rows[0].len()`
triggers the `fail!`. -/
def shapeCheckGo (len0 : Nat) : Nat → List Row → Option VboxError
  | _, [] => none
  | i, r :: rest =>
    if r.length ≠ len0 then some (.shape i r.length len0)
    else shapeCheckGo len0 (i + 1) rest

def shapeCheck (rows : List Row) : Option VboxError :=
  match rows with
  | [] => none
  | r0 :: rest => shapeCheckGo r0.length 1 rest

/-- `ncols`: the maximum row length (lib.rs lines 221-224). -/
def computeNcols (rows : List Row) : Nat :=
  rows.foldl (fun n r => max n r.length) 0

/-!
### Justify parsing (lib.rs lines 225-273)
-/

/-- The justify-parsing loop.  State: `count` (number of column letters seen),
`vert`/`vert_bold` (separator flags per column boundary) and `just` (the
column letters).  `|` and `!` mark the boundary after column `count - 1`. -/
def justifyGo (ncols : Nat) :
    List Char → Nat → List Bool → List Bool → List Char →
    Except VboxError (List Bool × List Bool × List Char)
  | [], _, vert, vb, just => .ok (vert, vb, just)
  | c :: rest, count, vert, vb, just =>
    if c = '|' then
      if count = 0 then .error .justifyStart
      else if ncols ≤ count then .error .justifyPos
      else justifyGo ncols rest count (vert.set (count - 1) true) vb just
    else if c = '!' then
      if count = 0 then .error .justifyStart
      else if ncols ≤ count then .error .justifyPos
      else justifyGo ncols rest count (vert.set (count - 1) true) (vb.set (count - 1) true) just
    else justifyGo ncols rest (count + 1) vert vb (just ++ [c])

/-- Parse the justify string; fails unless the number of column letters
equals `ncols` (the `assert_eq!` at lib.rs line 272). -/
def parseJustify (ncols : Nat) (justify : List Char) :
    Except VboxError (List Bool × List Bool × List Char) := do
  let (vert, vb, just) ←
    justifyGo ncols justify 0 (List.replicate ncols false) (List.replicate ncols false) []
  if just.length = ncols then .ok (vert, vb, just)
  else .error (.justifyCount just.length ncols)

/-!
### Constraint builder (lib.rs lines 318-353)

One constraint per span: a coverage vector `con` over the columns and a
required width `r`.  `lhs`/`rhs` of the source are kept as a single list of
pairs (they are parallel vectors in the source).
-/

/-- Rust `str::starts_with`, on character lists (the patterns used are ASCII,
so byte- and character-level prefixes agree). -/
def startsWithCell : Cell → Cell → Bool
  | _, [] => true
  | [], _ :: _ => false
  | c :: cs, p :: ps => c = p && startsWithCell cs ps

/-- The body of the inner `while` at lib.rs lines 331-337, on fuel (the loop
advances `k` toward `ncols`, so `ncols - k` fuel is exact: when the fuel hits
0 we have `k ≥ ncols` and the guard is false anyway). -/
def spanEndF (row : Row) (ncols : Nat) : Nat → Nat → Nat
  | 0, k => k
  | fuel + 1, k =>
    if k < ncols ∧ row.getD k [] = extCell then spanEndF row ncols fuel (k + 1) else k

/-- End of the span starting before `k`: advance while the cell is `"\ext"`. -/
def spanEnd (row : Row) (ncols : Nat) (k : Nat) : Nat :=
  spanEndF row ncols (ncols - k) k

theorem le_spanEndF (row : Row) (ncols : Nat) :
    ∀ fuel k, k ≤ spanEndF row ncols fuel k := by
  intro fuel
  induction fuel with
  | zero => intro k; exact le_refl k
  | succ fuel ih =>
    intro k
    rw [spanEndF]
    split
    · exact Nat.le_trans (Nat.le_succ k) (ih (k + 1))
    · exact le_refl k

theorem le_spanEnd (row : Row) (ncols : Nat) (k : Nat) : k ≤ spanEnd row ncols k :=
  le_spanEndF row ncols _ k

/-- The coverage vector of the span `[j, k)`: `con[t] = true` exactly for
`j ≤ t < k` (the source sets `con[j]` and then each continuation column). -/
def conVec (ncols j k : Nat) : List Bool :=
  (List.range ncols).map fun t => decide (j ≤ t ∧ t < k)

/-- The required width of the span `[j, k)` (lib.rs lines 339-350): the sum of
the visible widths of the covered cells minus, per internal boundary, the
separation (and one more `sep + 1` if the boundary carries a separator),
clamped at 0. -/
def conRhs (row : Row) (vert : List Bool) (sep j k : Nat) : Nat :=
  let r : Int := (List.range' j (k - j)).foldl
    (fun r l =>
      let r := r + (visible_width (row.getD l []) : Int)
      if l < k - 1 then
        let r := r - (sep : Int)
        if vert.getD l false then r - ((sep : Int) + 1) else r
      else r)
    0
  (max r 0).toNat

/-- The constraint scan of one row (the `while j < ncols` loop at lib.rs
lines 321-352), on fuel: rule cells are skipped, every other cell heads a
span.  Each pass moves `j` forward by at least 1, so `ncols - j` fuel is
enough; when the fuel hits 0 we have `j ≥ ncols` and the guard is false. -/
def rowConsF (vert : List Bool) (sep ncols : Nat) (row : Row) :
    Nat → Nat → List (List Bool × Nat)
  | 0, _ => []
  | fuel + 1, j =>
    if j < ncols then
      if startsWithCell (row.getD j []) hlineCell then rowConsF vert sep ncols row fuel (j + 1)
      else
        let k := spanEnd row ncols (j + 1)
        (conVec ncols j k, conRhs row vert sep j k) :: rowConsF vert sep ncols row fuel k
    else []

def rowConsGo (vert : List Bool) (sep ncols : Nat) (row : Row) (j : Nat) :
    List (List Bool × Nat) :=
  rowConsF vert sep ncols row (ncols - j) j

/-- All constraints, rows in order (lib.rs lines 318-353). -/
def buildCons (rows : List Row) (vert : List Bool) (sep ncols : Nat) :
    List (List Bool × Nat) :=
  rows.foldl (fun acc row => acc ++ rowConsGo vert sep ncols row 0) []

/-!
### The greedy width solver (lib.rs lines 355-413)

State: the widths `xw`, the precomputed table `sums` with
`sums[i][j] = Σ_{k covered by constraint j} (xw bumped at i)[k]`
(lib.rs lines 367-378, kept incrementally updated in the loop), and the
running total `deficit`.  The `loop` has no bound in the source; the
embedding runs it on fuel, and `solverLoop_terminates` below proves the fuel
passed by `solverRun` always suffices, so the fuel marker is unreachable.
-/

structure SolverState where
  xw : List Nat
  sums : List (List Nat)
  deficit : Nat
deriving DecidableEq

/-- `xw` with column `i` incremented (`xw_new` in the source). -/
def bumpW (xw : List Nat) (i : Nat) : List Nat :=
  xw.set i (xw.getD i 0 + 1)

/-- `Σ_k (if lhs[j][k] then xw[k])`, `k` over `0..ncols` with `ncols = xw.length`
(the inner loops of lib.rs lines 371-377). -/
def lhsDot (lhsj : List Bool) (xw : List Nat) : Nat :=
  (List.range xw.length).foldl
    (fun acc k => if lhsj.getD k false then acc + xw.getD k 0 else acc) 0

/-- Initial solver state (lib.rs lines 361-378). -/
def solverInit (cons : List (List Bool × Nat)) (ncols : Nat) : SolverState :=
  let xw := List.replicate ncols 0
  { xw := xw
    sums := (List.range ncols).map fun i => cons.map fun cj => lhsDot cj.1 (bumpW xw i)
    deficit := cons.foldl (fun d cj => d + cj.2) 0 }

/-- The deficit that would remain after bumping column `i`: `sums_i` is row `i`
of the `sums` table (lib.rs lines 386-392). -/
def currentDeficitAt (cons : List (List Bool × Nat)) (sums_i : List Nat) : Nat :=
  (cons.zip sums_i).foldl
    (fun cd p => if p.2 < p.1.2 then cd + (p.1.2 - p.2) else cd) 0

/-- One candidate column `i` in the `best` selection (the body of the
`for i in 0..ncols` loop, lib.rs lines 383-400). -/
def selBestF (cons : List (List Bool × Nat)) (sums : List (List Nat))
    (deficit : Nat) (best : Nat × Nat) (i : Nat) : Nat × Nat :=
  let cd := currentDeficitAt cons (sums.getD i [])
  if cd < deficit then
    let improvement := deficit - cd
    if best.1 < improvement then (improvement, i) else best
  else best

/-- Select `(best_improvement, best_i)` (lib.rs lines 381-400): strict
improvement over the current total deficit, strict maximality, ties to the
lowest column index, defaults `(0, 0)`. -/
def selectBest (cons : List (List Bool × Nat)) (sums : List (List Nat))
    (deficit ncols : Nat) : Nat × Nat :=
  (List.range ncols).foldl (selBestF cons sums deficit) (0, 0)

/-- The body of one loop iteration after `best` has been selected (lib.rs
lines 401-412): `xw[best_i] += 1` (a panic when `xw` is empty — the
`.indexPanic`), the incremental `sums` update, `deficit -= best_improvement`,
and the `break` test `deficit == 0` as the returned flag. -/
def solverStepWith (cons : List (List Bool × Nat)) (s : SolverState)
    (best : Nat × Nat) : Except VboxError (SolverState × Bool) :=
  if best.2 < s.xw.length then
    let xw := s.xw.set best.2 (s.xw.getD best.2 0 + 1)
    let sums := s.sums.map fun rowi =>
      (cons.zip rowi).map fun p => if p.1.1.getD best.2 false then p.2 + 1 else p.2
    let deficit := s.deficit - best.1
    .ok ({ xw := xw, sums := sums, deficit := deficit }, deficit = 0)
  else .error .indexPanic

/-- One iteration of the solver `loop` (lib.rs lines 380-413). -/
def solverStep (cons : List (List Bool × Nat)) (s : SolverState) :
    Except VboxError (SolverState × Bool) :=
  solverStepWith cons s (selectBest cons s.sums s.deficit s.xw.length)

/-- The solver `loop` on fuel. -/
def solverLoop (cons : List (List Bool × Nat)) : Nat → SolverState →
    Except VboxError SolverState
  | 0, _ => .error .fuelExhausted
  | fuel + 1, s =>
    match solverStep cons s with
    | .error e => .error e
    | .ok (s1, done) => if done then .ok s1 else solverLoop cons fuel s1

/-- Run the solver from the initial state.  The fuel `deficit + 1` provably
suffices (`solverLoop_terminates`), so this equals the unbounded source loop. -/
def solverRun (cons : List (List Bool × Nat)) (ncols : Nat) :
    Except VboxError (List Nat) :=
  let s0 := solverInit cons ncols
  (solverLoop cons (s0.deficit + 1) s0).map (·.xw)

/-- The checks and stages of `print_tabular_vbox` up to and including the
width solver, in source order: shape check, `ncols`, justify parsing,
constraint building, solving.  Returns `(xw, vert, vert_bold, just)`. -/
def solvedWidths (rows : List Row) (sep : Nat) (justify : List Char) :
    Except VboxError (List Nat × List Bool × List Bool × List Char) := do
  match shapeCheck rows with
  | some e => .error e
  | none =>
    let ncols := computeNcols rows
    let (vert, vb, just) ← parseJustify ncols justify
    let cons := buildCons rows vert sep ncols
    let xw ← solverRun cons ncols
    .ok (xw, vert, vb, just)

/-!
### C5: all-zero requirements

The loop body increments `xw[best_i]` *before* testing `deficit == 0`, so
even when every requirement is 0 the first iteration bumps column 0.
-/

theorem foldl_add_snd_zero (cons : List (List Bool × Nat))
    (h0 : ∀ cj ∈ cons, cj.2 = 0) :
    ∀ d, cons.foldl (fun d cj => d + cj.2) d = d := by
  induction cons with
  | nil => intro d; rfl
  | cons c l ih =>
    intro d
    rw [List.foldl_cons, h0 c (List.mem_cons_self c l)]
    exact ih (fun cj hm => h0 cj (List.mem_cons_of_mem c hm)) d

theorem selBestF_zero_deficit (cons : List (List Bool × Nat))
    (sums : List (List Nat)) (acc : Nat × Nat) (i : Nat) :
    selBestF cons sums 0 acc i = acc := by
  unfold selBestF
  simp

theorem selectBest_zero_deficit (cons : List (List Bool × Nat))
    (sums : List (List Nat)) (ncols : Nat) :
    selectBest cons sums 0 ncols = (0, 0) := by
  unfold selectBest
  have key : ∀ (l : List Nat) (acc : Nat × Nat),
      l.foldl (selBestF cons sums 0) acc = acc := by
    intro l
    induction l with
    | nil => intro acc; rfl
    | cons a l ih =>
      intro acc
      rw [List.foldl_cons, selBestF_zero_deficit]
      exact ih acc
  exact key _ _

/-- **C5 amended** (solver level).  The solver does initialize all widths to 0
and does stop as soon as the total deficit is 0 — but the unconditional
increment of column `best_i = 0` precedes that test, so when every
constraint's requirement is 0 the solved widths are `1, 0, …, 0`, not all 0. -/
theorem solverRun_def (cons : List (List Bool × Nat)) (ncols : Nat) :
    solverRun cons ncols =
      (solverLoop cons ((solverInit cons ncols).deficit + 1)
        (solverInit cons ncols)).map (·.xw) := rfl

theorem solverRun_all_zero_rhs (cons : List (List Bool × Nat)) (ncols : Nat)
    (h0 : ∀ cj ∈ cons, cj.2 = 0) (h1 : 0 < ncols) :
    solverRun cons ncols = .ok (1 :: List.replicate (ncols - 1) 0) := by
  obtain ⟨m, rfl⟩ : ∃ m, ncols = m + 1 := ⟨ncols - 1, by omega⟩
  have hdef : (solverInit cons (m + 1)).deficit = 0 := by
    simpa [solverInit] using foldl_add_snd_zero cons h0 0
  rw [solverRun_def, hdef, solverLoop]
  have hxw : (solverInit cons (m + 1)).xw = List.replicate (m + 1) 0 := rfl
  unfold solverStep solverStepWith
  rw [hdef, hxw, selectBest_zero_deficit]
  simp [List.replicate_succ, Except.map]

/-- Witness for `solverRun_all_zero_rhs`, at the constraints of the table
`[[""]]` (one row, one empty-string cell): requirement 0, solved width 1. -/
theorem solverRun_all_zero_rhs_witness :
    (∀ cj ∈ buildCons [[([] : Cell)]] [false] 0 1, cj.2 = 0) ∧ 0 < 1 ∧
    solverRun (buildCons [[([] : Cell)]] [false] 0 1) 1 = .ok [1] := by
  refine ⟨by decide, by decide, ?_⟩
  have := solverRun_all_zero_rhs (buildCons [[([] : Cell)]] [false] 0 1) 1
    (by decide) (by decide)
  simpa using this

/-- **C5 counterexample.**  For the table `[[""]]` (with `sep = 0`,
`justify = "l"`) every constraint has requirement 0, yet the solved width of
the single column is 1, not 0: the claim "every column's solved width is 0"
fails. -/
theorem solvedWidths_all_zero_cex :
    solvedWidths [[([] : Cell)]] 0 ['l'] = .ok ([1], [false], [false], ['l']) ∧
    ([1] : List Nat) ≠ [0] := by
  constructor
  · rfl
  · decide

/-!
### C4: termination of the solver loop

`trueDeficit cons xw` is the semantic total deficit of a width vector; the
loop invariant `SolverInv` ties the incrementally maintained `sums` table and
`deficit` field of the state to it.
-/

/-- The real total deficit of the width vector `xw`. -/
def trueDeficit (cons : List (List Bool × Nat)) (xw : List Nat) : Nat :=
  (cons.map fun cj => cj.2 - lhsDot cj.1 xw).sum

/-- The loop invariant of the solver (lib.rs lines 361-413): `xw` has one
entry per column, `sums[i][j]` is constraint `j`'s left-hand sum at `xw`
bumped at column `i`, and `deficit` is the real total deficit. -/
def SolverInv (cons : List (List Bool × Nat)) (ncols : Nat) (s : SolverState) : Prop :=
  s.xw.length = ncols ∧
  s.sums = (List.range ncols).map (fun i => cons.map fun cj => lhsDot cj.1 (bumpW s.xw i)) ∧
  s.deficit = trueDeficit cons s.xw

theorem foldl_add_if {α : Type} (g : α → Bool) (v : α → Nat) (l : List α) (a : Nat) :
    l.foldl (fun acc k => if g k then acc + v k else acc) a
      = a + (l.map fun k => if g k then v k else 0).sum := by
  induction l generalizing a with
  | nil => simp
  | cons b l ih =>
    rw [List.foldl_cons, ih]
    by_cases hb : g b <;> simp [hb] <;> omega

theorem lhsDot_eq_sum (lhsj : List Bool) (xw : List Nat) :
    lhsDot lhsj xw
      = ((List.range xw.length).map fun k =>
          if lhsj.getD k false then xw.getD k 0 else 0).sum := by
  unfold lhsDot
  simpa using foldl_add_if (fun k => lhsj.getD k false) (fun k => xw.getD k 0)
    (List.range xw.length) 0

theorem getD_map_range {α : Type} (f : Nat → α) (n i : Nat) (d : α) (h : i < n) :
    ((List.range n).map f).getD i d = f i := by
  rw [List.getD_eq_getElem _ _ (by simpa using h)]
  simp

theorem sum_range_map_add_at (n t : Nat) (f g : Nat → Nat) (d : Nat) (ht : t < n)
    (hne : ∀ k, k ≠ t → f k = g k) (hd : f t = g t + d) :
    ((List.range n).map f).sum = ((List.range n).map g).sum + d := by
  induction n with
  | zero => omega
  | succ n ih =>
    rw [List.range_succ, List.map_append, List.map_append, List.sum_append, List.sum_append]
    by_cases h : t = n
    · subst h
      have heq : (List.range t).map f = (List.range t).map g :=
        List.map_congr_left (fun k hk => hne k (by have := List.mem_range.mp hk; omega))
      rw [heq]
      simp [hd]
      omega
    · rw [ih (by omega)]
      have heq : f n = g n := hne n (by omega)
      simp [heq]
      omega

theorem bumpW_length (xw : List Nat) (t : Nat) : (bumpW xw t).length = xw.length := by
  simp [bumpW]

theorem getD_bumpW_self (xw : List Nat) (t : Nat) (ht : t < xw.length) :
    (bumpW xw t).getD t 0 = xw.getD t 0 + 1 := by
  unfold bumpW
  generalize xw.getD t 0 + 1 = v
  rw [List.getD_eq_getElem _ _ (by simpa using ht)]
  exact List.getElem_set_self _

theorem getD_bumpW_ne (xw : List Nat) (t k : Nat) (hk : k ≠ t) :
    (bumpW xw t).getD k 0 = xw.getD k 0 := by
  unfold bumpW
  by_cases hk2 : k < xw.length
  · rw [List.getD_eq_getElem _ _ (by simpa using hk2), List.getD_eq_getElem _ _ hk2]
    exact List.getElem_set_ne (Ne.symm hk) _
  · rw [List.getD_eq_default _ _ (by simpa using Nat.le_of_not_lt hk2),
      List.getD_eq_default _ _ (Nat.le_of_not_lt hk2)]

theorem lhsDot_bump (lhsj : List Bool) (xw : List Nat) (t : Nat) (ht : t < xw.length) :
    lhsDot lhsj (bumpW xw t)
      = lhsDot lhsj xw + (if lhsj.getD t false then 1 else 0) := by
  rw [lhsDot_eq_sum, lhsDot_eq_sum, bumpW_length]
  by_cases hc : lhsj.getD t false = true
  · rw [if_pos hc]
    exact sum_range_map_add_at _ t _ _ 1 ht
      (fun k hk => by
        by_cases hck : lhsj.getD k false = true
        · rw [if_pos hck, if_pos hck, getD_bumpW_ne xw t k hk]
        · rw [if_neg hck, if_neg hck])
      (by rw [if_pos hc, if_pos hc, getD_bumpW_self xw t ht])
  · rw [if_neg hc]
    have heq : ((List.range xw.length).map fun k =>
          if lhsj.getD k false then (bumpW xw t).getD k 0 else 0)
        = ((List.range xw.length).map fun k =>
          if lhsj.getD k false then xw.getD k 0 else 0) :=
      List.map_congr_left (fun k _ => by
        by_cases hkt : k = t
        · subst hkt
          rw [if_neg hc, if_neg hc]
        · by_cases hck : lhsj.getD k false = true
          · rw [if_pos hck, if_pos hck, getD_bumpW_ne xw t k hkt]
          · rw [if_neg hck, if_neg hck])
    rw [heq]
    omega

theorem trueDeficit_bump_le (cons : List (List Bool × Nat)) (xw : List Nat) (t : Nat)
    (ht : t < xw.length) :
    trueDeficit cons (bumpW xw t) ≤ trueDeficit cons xw := by
  unfold trueDeficit
  apply List.sum_le_sum
  intro cj _
  have := lhsDot_bump cj.1 xw t ht
  omega

theorem trueDeficit_bump_lt (cons : List (List Bool × Nat)) (xw : List Nat) (t : Nat)
    (ht : t < xw.length) (cj : List Bool × Nat) (hmem : cj ∈ cons)
    (hpos : 0 < cj.2 - lhsDot cj.1 xw) (hcov : cj.1.getD t false = true) :
    trueDeficit cons (bumpW xw t) < trueDeficit cons xw := by
  obtain ⟨l1, l2, rfl⟩ := List.append_of_mem hmem
  unfold trueDeficit
  rw [List.map_append, List.map_append, List.sum_append, List.sum_append,
    List.map_cons, List.map_cons, List.sum_cons, List.sum_cons]
  have h1 : (l1.map fun c => c.2 - lhsDot c.1 (bumpW xw t)).sum
      ≤ (l1.map fun c => c.2 - lhsDot c.1 xw).sum := by
    apply List.sum_le_sum
    intro c _
    have := lhsDot_bump c.1 xw t ht
    omega
  have h2 : (l2.map fun c => c.2 - lhsDot c.1 (bumpW xw t)).sum
      ≤ (l2.map fun c => c.2 - lhsDot c.1 xw).sum := by
    apply List.sum_le_sum
    intro c _
    have := lhsDot_bump c.1 xw t ht
    omega
  have hcj : cj.2 - lhsDot cj.1 (bumpW xw t) < cj.2 - lhsDot cj.1 xw := by
    rw [lhsDot_bump cj.1 xw t ht, hcov]
    simp
    omega
  omega

theorem currentDeficitAt_map (cons : List (List Bool × Nat))
    (g : List Bool × Nat → Nat) :
    currentDeficitAt cons (cons.map g) = (cons.map fun cj => cj.2 - g cj).sum := by
  unfold currentDeficitAt
  have hz : cons.zip (cons.map g) = cons.map fun c => (c, g c) := by
    simpa using List.zip_map' id g cons
  rw [hz, List.foldl_map]
  have key : ∀ (l : List (List Bool × Nat)) (a : Nat),
      l.foldl (fun cd c => if g c < c.2 then cd + (c.2 - g c) else cd) a
        = a + (l.map fun cj => cj.2 - g cj).sum := by
    intro l
    induction l with
    | nil => simp
    | cons b l ih =>
      intro a
      rw [List.foldl_cons, ih]
      by_cases hb : g b < b.2 <;> simp [hb] <;> omega
  simpa using key cons 0

/-- Under the invariant, the precomputed `sums` row `i` yields exactly the
deficit the table would have after bumping column `i`. -/
theorem currentDeficitAt_inv (cons : List (List Bool × Nat)) (ncols : Nat)
    (s : SolverState) (inv : SolverInv cons ncols s) (i : Nat) (hi : i < ncols) :
    currentDeficitAt cons (s.sums.getD i []) = trueDeficit cons (bumpW s.xw i) := by
  rw [inv.2.1, getD_map_range _ _ _ _ hi, currentDeficitAt_map]
  rfl

theorem selBestF_fst_le (cons : List (List Bool × Nat)) (sums : List (List Nat))
    (deficit : Nat) (acc : Nat × Nat) (i : Nat) :
    acc.1 ≤ (selBestF cons sums deficit acc i).1 := by
  unfold selBestF
  by_cases h1 : currentDeficitAt cons (sums.getD i []) < deficit
  · simp only [h1, if_true]
    by_cases h2 : acc.1 < deficit - currentDeficitAt cons (sums.getD i [])
    · simp only [h2, if_true]
      omega
    · simp only [h2, if_false]
      exact le_refl _
  · simp only [h1, if_false]
    exact le_refl _

theorem foldl_selBestF_fst_le (cons : List (List Bool × Nat)) (sums : List (List Nat))
    (deficit : Nat) (l : List Nat) :
    ∀ acc, acc.1 ≤ (l.foldl (selBestF cons sums deficit) acc).1 := by
  induction l with
  | nil => intro acc; exact le_refl _
  | cons a l ih =>
    intro acc
    rw [List.foldl_cons]
    exact Nat.le_trans (selBestF_fst_le cons sums deficit acc a) (ih _)

/-- The selected improvement dominates the improvement of every candidate
column. -/
theorem selectBest_dominates (cons : List (List Bool × Nat)) (sums : List (List Nat))
    (deficit ncols : Nat) (i : Nat) (hi : i < ncols)
    (himp : currentDeficitAt cons (sums.getD i []) < deficit) :
    deficit - currentDeficitAt cons (sums.getD i [])
      ≤ (selectBest cons sums deficit ncols).1 := by
  unfold selectBest
  have key : ∀ (l : List Nat) (acc : Nat × Nat), i ∈ l →
      deficit - currentDeficitAt cons (sums.getD i [])
        ≤ (l.foldl (selBestF cons sums deficit) acc).1 := by
    intro l
    induction l with
    | nil => intro acc h; simp at h
    | cons a l ih =>
      intro acc h
      rw [List.foldl_cons]
      rcases List.mem_cons.mp h with rfl | hmem
      · refine Nat.le_trans ?_ (foldl_selBestF_fst_le cons sums deficit l _)
        unfold selBestF
        simp only [himp, if_true]
        by_cases h2 : acc.1 < deficit - currentDeficitAt cons (sums.getD i [])
        · simp only [h2, if_true]
          exact le_refl _
        · simp only [h2, if_false]
          omega
      · exact ih _ hmem
  exact key _ _ (List.mem_range.mpr hi)

/-- What the selected pair satisfies: either nothing improved (so it is the
default `(0, 0)`), or it names a real column whose bump realizes exactly the
recorded improvement. -/
theorem selectBest_achieves (cons : List (List Bool × Nat)) (sums : List (List Nat))
    (deficit ncols : Nat) :
    selectBest cons sums deficit ncols = (0, 0) ∨
    (0 < (selectBest cons sums deficit ncols).1 ∧
      (selectBest cons sums deficit ncols).1 ≤ deficit ∧
      (selectBest cons sums deficit ncols).2 < ncols ∧
      currentDeficitAt cons (sums.getD (selectBest cons sums deficit ncols).2 [])
        = deficit - (selectBest cons sums deficit ncols).1) := by
  unfold selectBest
  have key : ∀ (l : List Nat) (acc : Nat × Nat), (∀ i ∈ l, i < ncols) →
      (acc = (0, 0) ∨ (0 < acc.1 ∧ acc.1 ≤ deficit ∧ acc.2 < ncols ∧
        currentDeficitAt cons (sums.getD acc.2 []) = deficit - acc.1)) →
      ((l.foldl (selBestF cons sums deficit) acc) = (0, 0) ∨
        (0 < (l.foldl (selBestF cons sums deficit) acc).1 ∧
          (l.foldl (selBestF cons sums deficit) acc).1 ≤ deficit ∧
          (l.foldl (selBestF cons sums deficit) acc).2 < ncols ∧
          currentDeficitAt cons
              (sums.getD (l.foldl (selBestF cons sums deficit) acc).2 [])
            = deficit - (l.foldl (selBestF cons sums deficit) acc).1)) := by
    intro l
    induction l with
    | nil => intro acc _ hacc; exact hacc
    | cons a l ih =>
      intro acc hl hacc
      rw [List.foldl_cons]
      refine ih _ (fun i hi => hl i (List.mem_cons_of_mem a hi)) ?_
      unfold selBestF
      by_cases h1 : currentDeficitAt cons (sums.getD a []) < deficit
      · simp only [h1, if_true]
        by_cases h2 : acc.1 < deficit - currentDeficitAt cons (sums.getD a [])
        · simp only [h2, if_true]
          right
          refine ⟨by omega, by omega, hl a (List.mem_cons_self a l), ?_⟩
          dsimp only
          omega
        · simp only [h2, if_false]
          exact hacc
      · simp only [h1, if_false]
        exact hacc
  exact key _ _ (fun i hi => List.mem_range.mp hi) (Or.inl rfl)

theorem exists_mem_pos_of_sum_pos {α : Type} (l : List α) (f : α → Nat)
    (h : 0 < (l.map f).sum) : ∃ x ∈ l, 0 < f x := by
  by_contra hcon
  push_neg at hcon
  have hz : (l.map f).sum = 0 := by
    apply List.sum_eq_zero
    intro x hx
    obtain ⟨y, hy, rfl⟩ := List.mem_map.mp hx
    have := hcon y hy
    omega
  omega

/-- The incremental `sums` update of one iteration preserves the `sums`
interpretation of the invariant. -/
theorem sums_update_eq (cons : List (List Bool × Nat)) (ncols : Nat)
    (xw : List Nat) (b : Nat) (hlen : xw.length = ncols) (hb : b < ncols) :
    ((List.range ncols).map (fun i => cons.map fun cj => lhsDot cj.1 (bumpW xw i))).map
        (fun rowi => (cons.zip rowi).map fun p =>
          if p.1.1.getD b false then p.2 + 1 else p.2)
      = (List.range ncols).map
          (fun i => cons.map fun cj => lhsDot cj.1 (bumpW (bumpW xw b) i)) := by
  rw [List.map_map]
  apply List.map_congr_left
  intro i hi
  have hi' : i < ncols := List.mem_range.mp hi
  show ((cons.zip (cons.map fun cj => lhsDot cj.1 (bumpW xw i))).map fun p =>
      if p.1.1.getD b false then p.2 + 1 else p.2)
    = cons.map fun cj => lhsDot cj.1 (bumpW (bumpW xw b) i)
  have hz : cons.zip (cons.map fun cj => lhsDot cj.1 (bumpW xw i))
      = cons.map fun c => (c, lhsDot c.1 (bumpW xw i)) := by
    simpa using List.zip_map' id (fun cj => lhsDot cj.1 (bumpW xw i)) cons
  rw [hz, List.map_map]
  apply List.map_congr_left
  intro cj _
  show (if cj.1.getD b false then lhsDot cj.1 (bumpW xw i) + 1
        else lhsDot cj.1 (bumpW xw i))
      = lhsDot cj.1 (bumpW (bumpW xw b) i)
  rw [lhsDot_bump cj.1 (bumpW xw b) i (by rw [bumpW_length]; omega),
    lhsDot_bump cj.1 xw b (by omega), lhsDot_bump cj.1 xw i (by omega)]
  by_cases hcb : cj.1.getD b false = true
  · rw [if_pos hcb, if_pos hcb]
    omega
  · rw [if_neg hcb, if_neg hcb]
    omega

/-- One solver iteration from an invariant state: it succeeds, preserves the
invariant, never increases the deficit, and strictly decreases it while any
deficit remains. -/
theorem solverStep_inv (cons : List (List Bool × Nat)) (ncols : Nat)
    (s : SolverState) (hn : 0 < ncols)
    (hcov : ∀ cj ∈ cons, ∃ t, t < ncols ∧ cj.1.getD t false = true)
    (inv : SolverInv cons ncols s) :
    ∃ s' done, solverStep cons s = .ok (s', done) ∧ SolverInv cons ncols s' ∧
      (done = true ↔ s'.deficit = 0) ∧
      s'.deficit ≤ s.deficit ∧ (0 < s.deficit → s'.deficit < s.deficit) := by
  obtain ⟨hlen, hsums, hdef⟩ := inv
  have hb2 : (selectBest cons s.sums s.deficit s.xw.length).2 < s.xw.length := by
    rcases selectBest_achieves cons s.sums s.deficit s.xw.length with h | h
    · rw [h]
      omega
    · exact h.2.2.1
  set best := selectBest cons s.sums s.deficit s.xw.length with hbestdef
  refine ⟨⟨s.xw.set best.2 (s.xw.getD best.2 0 + 1),
      s.sums.map fun rowi => (cons.zip rowi).map fun p =>
        if p.1.1.getD best.2 false then p.2 + 1 else p.2,
      s.deficit - best.1⟩,
    decide (s.deficit - best.1 = 0), ?_, ?_, ?_, ?_, ?_⟩
  · show solverStepWith cons s best = _
    unfold solverStepWith
    rw [if_pos hb2]
  · -- the invariant for the new state
    have hxw' : s.xw.set best.2 (s.xw.getD best.2 0 + 1) = bumpW s.xw best.2 := rfl
    refine ⟨by simp [hlen], ?_, ?_⟩
    · show (s.sums.map fun rowi => (cons.zip rowi).map fun p =>
          if p.1.1.getD best.2 false then p.2 + 1 else p.2) = _
      rw [hsums, hxw']
      exact sums_update_eq cons ncols s.xw best.2 hlen (by omega)
    · -- deficit field equals the real deficit of the bumped widths
      show s.deficit - best.1 = trueDeficit cons (bumpW s.xw best.2)
      by_cases hzero : s.deficit = 0
      · have hb0 : best = (0, 0) := by
          rw [hbestdef, hzero]
          exact selectBest_zero_deficit cons s.sums s.xw.length
        have hle : trueDeficit cons (bumpW s.xw best.2) ≤ trueDeficit cons s.xw :=
          trueDeficit_bump_le cons s.xw best.2 (by omega)
        omega
      · -- some constraint has positive deficit, so the best improvement ≥ 1
        have hpos : 0 < trueDeficit cons s.xw := by omega
        obtain ⟨cj, hcj, hcjpos⟩ :=
          exists_mem_pos_of_sum_pos cons (fun cj => cj.2 - lhsDot cj.1 s.xw) hpos
        obtain ⟨t, ht, htcov⟩ := hcov cj hcj
        have hcd : currentDeficitAt cons (s.sums.getD t [])
            = trueDeficit cons (bumpW s.xw t) :=
          currentDeficitAt_inv cons ncols s ⟨hlen, hsums, hdef⟩ t ht
        have hlt : trueDeficit cons (bumpW s.xw t) < trueDeficit cons s.xw :=
          trueDeficit_bump_lt cons s.xw t (by omega) cj hcj hcjpos htcov
        have hdom := selectBest_dominates cons s.sums s.deficit s.xw.length t
          (by omega) (by omega)
        have hach := selectBest_achieves cons s.sums s.deficit s.xw.length
        rcases hach with h | h
        · rw [← hbestdef] at h hdom
          rw [h] at hdom ⊢
          dsimp only at hdom ⊢
          omega
        · rw [← hbestdef] at h
          obtain ⟨hb1, hble, _, heq⟩ := h
          have hcd2 : currentDeficitAt cons (s.sums.getD best.2 [])
              = trueDeficit cons (bumpW s.xw best.2) :=
            currentDeficitAt_inv cons ncols s ⟨hlen, hsums, hdef⟩ best.2 (by omega)
          omega
  · show (decide (s.deficit - best.1 = 0) = true) ↔ s.deficit - best.1 = 0
    simp
  · show s.deficit - best.1 ≤ s.deficit
    omega
  · intro hpos
    show s.deficit - best.1 < s.deficit
    -- while any deficit remains the witness column gives improvement ≥ 1
    have hpos' : 0 < trueDeficit cons s.xw := by omega
    obtain ⟨cj, hcj, hcjpos⟩ :=
      exists_mem_pos_of_sum_pos cons (fun cj => cj.2 - lhsDot cj.1 s.xw) hpos'
    obtain ⟨t, ht, htcov⟩ := hcov cj hcj
    have hcd : currentDeficitAt cons (s.sums.getD t [])
        = trueDeficit cons (bumpW s.xw t) :=
      currentDeficitAt_inv cons ncols s ⟨hlen, hsums, hdef⟩ t ht
    have hlt : trueDeficit cons (bumpW s.xw t) < trueDeficit cons s.xw :=
      trueDeficit_bump_lt cons s.xw t (by omega) cj hcj hcjpos htcov
    have hdom := selectBest_dominates cons s.sums s.deficit s.xw.length t
      (by omega) (by omega)
    rw [← hbestdef] at hdom
    omega

/-- While any deficit remains the loop strictly reduces it, so `max 1 D` fuel
(`D` the current deficit) always reaches the `break`. -/
theorem solverLoop_reaches_zero (cons : List (List Bool × Nat)) (ncols : Nat)
    (hn : 0 < ncols)
    (hcov : ∀ cj ∈ cons, ∃ t, t < ncols ∧ cj.1.getD t false = true) :
    ∀ fuel s, SolverInv cons ncols s → max 1 s.deficit ≤ fuel →
      ∃ s', solverLoop cons fuel s = .ok s' ∧ s'.deficit = 0 := by
  intro fuel
  induction fuel with
  | zero =>
    intro s _ hf
    omega
  | succ fuel ih =>
    intro s inv hf
    obtain ⟨s', done, hstep, inv', hdone, hle, hlt⟩ :=
      solverStep_inv cons ncols s hn hcov inv
    have hred : solverLoop cons (fuel + 1) s
        = if done = true then .ok s' else solverLoop cons fuel s' := by
      rw [solverLoop, hstep]
    by_cases hd : done = true
    · exact ⟨s', by rw [hred, if_pos hd], hdone.mp hd⟩
    · have hne : s'.deficit ≠ 0 := fun h => hd (hdone.mpr h)
      have hsd : 0 < s.deficit := by
        by_contra hc
        have : s.deficit = 0 := by omega
        have := hle
        omega
      have := hlt hsd
      obtain ⟨s'', hs'', hz⟩ := ih s' inv' (by omega)
      exact ⟨s'', by rw [hred, if_neg hd]; exact hs'', hz⟩

theorem foldl_add_snd (cons : List (List Bool × Nat)) :
    ∀ a, cons.foldl (fun d cj => d + cj.2) a = a + (cons.map Prod.snd).sum := by
  induction cons with
  | nil => intro a; simp
  | cons c l ih =>
    intro a
    rw [List.foldl_cons, ih]
    simp
    omega

theorem lhsDot_replicate_zero (lhsj : List Bool) (n : Nat) :
    lhsDot lhsj (List.replicate n 0) = 0 := by
  rw [lhsDot_eq_sum]
  apply List.sum_eq_zero
  intro x hx
  obtain ⟨k, hk, rfl⟩ := List.mem_map.mp hx
  by_cases h : lhsj.getD k false = true
  · rw [if_pos h]
    by_cases hlt : k < (List.replicate n (0 : Nat)).length
    · rw [List.getD_eq_getElem _ _ hlt]
      simp
    · rw [List.getD_eq_default _ _ (Nat.le_of_not_lt hlt)]
  · rw [if_neg h]

/-- The initial state (all widths 0, `sums` freshly tabulated, `deficit` the
sum of requirements) satisfies the invariant. -/
theorem solverInit_inv (cons : List (List Bool × Nat)) (ncols : Nat) :
    SolverInv cons ncols (solverInit cons ncols) := by
  refine ⟨by simp [solverInit], rfl, ?_⟩
  show cons.foldl (fun d cj => d + cj.2) 0 = trueDeficit cons (List.replicate ncols 0)
  rw [foldl_add_snd]
  unfold trueDeficit
  have heq : (cons.map fun cj => cj.2 - lhsDot cj.1 (List.replicate ncols 0))
      = cons.map Prod.snd :=
    List.map_congr_left (fun cj _ => by rw [lhsDot_replicate_zero]; omega)
  rw [heq]
  omega

/-- Every constraint that the builder emits covers at least one real column
(`con[j] = true` for the span's head column `j < ncols`). -/
theorem rowConsF_cover (vert : List Bool) (sep ncols : Nat) (row : Row) :
    ∀ fuel j, ∀ cj ∈ rowConsF vert sep ncols row fuel j,
      ∃ t, t < ncols ∧ cj.1.getD t false = true := by
  intro fuel
  induction fuel with
  | zero =>
    intro j cj h
    simp [rowConsF] at h
  | succ fuel ih =>
    intro j cj h
    rw [rowConsF] at h
    by_cases hj : j < ncols
    · rw [if_pos hj] at h
      by_cases hh : startsWithCell (row.getD j []) hlineCell = true
      · rw [if_pos hh] at h
        exact ih _ cj h
      · rw [if_neg hh] at h
        rcases List.mem_cons.mp h with heq | hmem
        · refine ⟨j, hj, ?_⟩
          rw [heq]
          show (conVec ncols j (spanEnd row ncols (j + 1))).getD j false = true
          unfold conVec
          rw [getD_map_range _ _ _ _ hj]
          have hk : j + 1 ≤ spanEnd row ncols (j + 1) := le_spanEnd row ncols (j + 1)
          simp
          omega
        · exact ih _ cj hmem
    · rw [if_neg hj] at h
      simp at h

theorem buildCons_cover (rows : List Row) (vert : List Bool) (sep ncols : Nat) :
    ∀ cj ∈ buildCons rows vert sep ncols,
      ∃ t, t < ncols ∧ cj.1.getD t false = true := by
  unfold buildCons
  have key : ∀ (rs : List Row) (acc : List (List Bool × Nat)),
      (∀ cj ∈ acc, ∃ t, t < ncols ∧ cj.1.getD t false = true) →
      ∀ cj ∈ rs.foldl (fun acc row => acc ++ rowConsGo vert sep ncols row 0) acc,
        ∃ t, t < ncols ∧ cj.1.getD t false = true := by
    intro rs
    induction rs with
    | nil => intro acc hacc; exact hacc
    | cons r rs ih =>
      intro acc hacc cj h
      rw [List.foldl_cons] at h
      refine ih _ ?_ cj h
      intro c hc
      rcases List.mem_append.mp hc with h1 | h2
      · exact hacc c h1
      · exact rowConsF_cover vert sep ncols r _ _ c h2
  exact key rows [] (by simp)

/-- **C4 amended.** For every table with at least one column, the greedy
width-solver loop terminates: writing `D` for the initial total deficit, the
loop reaches the `break` (total deficit 0) within `max 1 D` iterations —
whenever any deficit remains, every unmet constraint covers a column whose
increment strictly reduces the total, so each iteration lowers it by at
least 1; when `D = 0` one iteration (not zero) still runs before the test.
With zero columns the loop instead panics on `xw[0]` (see the C10 theorem). -/
theorem solverLoop_terminates (rows : List Row) (vert : List Bool) (sep ncols : Nat)
    (h1 : 0 < ncols) :
    ∃ s', solverLoop (buildCons rows vert sep ncols)
        (max 1 (solverInit (buildCons rows vert sep ncols) ncols).deficit)
        (solverInit (buildCons rows vert sep ncols) ncols) = .ok s'
      ∧ s'.deficit = 0 :=
  solverLoop_reaches_zero (buildCons rows vert sep ncols) ncols h1
    (buildCons_cover rows vert sep ncols) _ _
    (solverInit_inv (buildCons rows vert sep ncols) ncols) (le_refl _)

/-- Witness for `solverLoop_terminates` at the table `[["a"]]`. -/
theorem solverLoop_terminates_witness :
    0 < 1 ∧ ∃ s', solverLoop (buildCons [[['a']]] [false] 0 1)
        (max 1 (solverInit (buildCons [[['a']]] [false] 0 1) 1).deficit)
        (solverInit (buildCons [[['a']]] [false] 0 1) 1) = .ok s'
      ∧ s'.deficit = 0 :=
  ⟨by decide, solverLoop_terminates [[['a']]] [false] 0 1 (by decide)⟩

/-- **C4 counterexample.**  On the table `[[""]]` the initial total deficit is
0, yet the loop does not finish within 0 iterations (the claimed bound "at
most the initial total deficit many steps"): it still performs one iteration,
which increments column 0, before reaching the `break`. -/
theorem solver_fuel_bound_cex :
    (solverInit (buildCons [[([] : Cell)]] [false] 0 1) 1).deficit = 0 ∧
    solverLoop (buildCons [[([] : Cell)]] [false] 0 1) 0
      (solverInit (buildCons [[([] : Cell)]] [false] 0 1) 1) = .error .fuelExhausted ∧
    (solverLoop (buildCons [[([] : Cell)]] [false] 0 1) 1
      (solverInit (buildCons [[([] : Cell)]] [false] 0 1) 1)).map (·.xw) = .ok [1] :=
  ⟨rfl, rfl, rfl⟩

/-!
### Cell padding (lib.rs lines 451-492)
-/

/-- The span-target scan for a cell (the `while` at lib.rs lines 462-470):
accumulate the solved widths of the continuation columns plus the separation
(and separator bar) consumed at each internal boundary; the Bool is `exting`.
Fuel `ncols - k` is exact, as for `spanEndF`. -/
def extTargetF (xw : List Nat) (vert : List Bool) (sep ncols : Nat) (row : Row) :
    Nat → Nat → Nat × Bool → Nat × Bool
  | 0, _, acc => acc
  | fuel + 1, k, acc =>
    if k < ncols ∧ row.getD k [] = extCell then
      extTargetF xw vert sep ncols row fuel (k + 1)
        (acc.1 + xw.getD k 0 + sep + (if vert.getD (k - 1) false then sep + 1 else 0),
         true)
    else acc

/-- `(target, exting)` for the cell at column `j` (lib.rs lines 458-470):
`target` starts at `xw[j]`. -/
def extTarget (xw : List Nat) (vert : List Bool) (sep ncols : Nat) (row : Row)
    (j : Nat) : Nat × Bool :=
  extTargetF xw vert sep ncols row (ncols - (j + 1)) (j + 1) (xw.getD j 0, false)

/-- Pad one cell (lib.rs lines 453-491).  Rule and continuation cells are
unchanged; a cell whose span target exceeds its visible width is padded with
spaces — appended on the right when the column is left-justified or the cell
heads a span (`exting`), prepended on the left otherwise. -/
def padCell (xw : List Nat) (vert : List Bool) (just : List Char) (sep ncols : Nat)
    (row : Row) (j : Nat) : Cell :=
  let c := row.getD j []
  if c = extCell ∨ startsWithCell c hlineCell then c
  else
    let w := visible_width c
    let te := extTarget xw vert sep ncols row j
    if w < te.1 then
      let add := te.1 - w
      if just.getD j ' ' = 'l' ∨ te.2 = true then c ++ List.replicate add ' '
      else List.replicate add ' ' ++ c
    else c

/-- The padding pass on one row (`for j in 0..ncols`, lib.rs lines 453-492).
Within a row each cell's new value depends only on its own old value and on
`"\ext"` cells to its right, which the pass never modifies, so the in-place
update equals a per-cell map. -/
def padRow (xw : List Nat) (vert : List Bool) (just : List Char) (sep ncols : Nat)
    (row : Row) : Row :=
  (List.range ncols).map fun j => padCell xw vert just sep ncols row j

/-!
### `maxcol` recomputation (lib.rs lines 494-510)
-/

/-- One step of the `maxcol` update at column `j` of a row. -/
def mcStep (row : Row) (mc : List Nat) (j : Nat) : List Nat :=
  if j < row.length - 1 ∧ row.getD (j + 1) [] = extCell then mc
  else if row.getD j [] = extCell ∨ startsWithCell (row.getD j []) hlineCell then mc
  else mc.set j (max (mc.getD j 0) (visible_width (row.getD j [])))

/-- The `maxcol` update over one row (inner loop of lib.rs lines 497-507). -/
def maxcolRowUpd (mc : List Nat) (row : Row) : List Nat :=
  (List.range row.length).foldl (mcStep row) mc

/-- The recomputed `maxcol` (lib.rs lines 496-507): the rendered width of
each column. -/
def computeMaxcol (rows : List Row) (ncols : Nat) : List Nat :=
  rows.foldl maxcolRowUpd (List.replicate ncols 0)

/-- Replace a leading `"\ext"` cell by `maxcol[0]` spaces (lib.rs lines
512-518). -/
def replaceLeadingExt (rows : List Row) (mc0 : Nat) : List Row :=
  rows.map fun row =>
    if row.getD 0 [] = extCell then row.set 0 (List.replicate mc0 ' ') else row

/-!
### The raw grid renderer (lib.rs lines 520-746)

These produce the characters pushed onto `log`; the function appends them
after whatever `log` already held.
-/

/-- Top border (lib.rs lines 520-563). -/
def topBorder (opt : VboxOptions) (mc : List Nat) (vert vb : List Bool)
    (sep ncols : Nat) : List Char :=
  [if opt.bold_outer = false then topleftC opt else topleftBold]
  ++ ((List.range ncols).map fun i =>
      List.replicate (mc.getD i 0 + (if i < ncols - 1 then sep else 0))
        (if opt.bold_outer = false then dashC opt else dashBold)
      ++ (if vert.getD i false then
            [if vb.getD i false = false then
               (if opt.bold_outer = false then teeC opt else teeBold)
             else teeBold]
            ++ List.replicate sep
                (if opt.bold_outer = false then dashC opt else dashBold)
          else [])).flatten
  ++ [if opt.bold_outer = false then toprightC opt else toprightBold]
  ++ ['\n']

/-- The padded-or-rule cell text pushed for column `j` of a body row (lib.rs
lines 578-617). -/
def bodyCell (opt : VboxOptions) (mc : List Nat) (just : List Char) (row : Row)
    (j : Nat) : List Char :=
  if row.length ≤ j then List.replicate (mc.getD j 0) ' '
  else if startsWithCell (row.getD j []) hlineCell then
    List.replicate (mc.getD j 0)
      (if row.getD j [] = hlineCell then dashC opt else dashBold)
  else
    let r := row.getD j []
    let rlen := visible_width r
    if r ≠ extCell then
      (if just.getD j ' ' = 'r' then List.replicate (mc.getD j 0 - rlen) ' ' else [])
      ++ (if j < row.length then r else [])
      ++ (if just.getD j ' ' = 'l' then
            List.replicate (mc.getD j 0 -
              ((if just.getD j ' ' = 'r' then mc.getD j 0 - rlen else 0)
               + (if j < row.length then visible_width r else 0))) ' '
          else [])
    else []

/-- The scan `jp` forward over continuation cells (lib.rs lines 625-631). -/
def extScanJpF (row : Row) : Nat → Nat → Nat
  | 0, jp => jp
  | fuel + 1, jp =>
    if jp + 1 < row.length ∧ row.getD (jp + 1) [] = extCell then
      extScanJpF row fuel (jp + 1)
    else jp

def extScanJp (row : Row) (j : Nat) : Nat := extScanJpF row (row.length - j) j

/-- The separation gap and separator bar pushed after column `j` of a body
row (lib.rs lines 619-683). -/
def bodySep (opt : VboxOptions) (vert vb : List Bool) (sep ncols : Nat)
    (row : Row) (j : Nat) : List Char :=
  let add_sep := ¬(j + 1 < row.length ∧ row.getD (j + 1) [] = extCell)
  let jp := extScanJp row j
  (if add_sep ∧ jp < ncols - 1 then
     (if startsWithCell (row.getD j []) hlineCell then
        List.replicate sep (if row.getD j [] = hlineCell then dashC opt else dashBold)
      else List.replicate sep ' ')
   else [])
  ++ (if vert.getD j false ∧ row.length ≤ j + 1 then
        [if vb.getD j false = false then vertyC opt else vertyBold]
        ++ List.replicate sep ' '
      else if vert.getD j false ∧ row.getD (j + 1) [] ≠ extCell then
        [if vb.getD j false = false then vertyC opt else vertyBold]
        ++ (if startsWithCell (row.getD (j + 1) []) hlineCell then
              List.replicate sep
                (if row.getD (j + 1) [] = hlineCell then dashC opt else dashBold)
            else List.replicate sep ' ')
      else [])

/-- One body row (lib.rs lines 567-694). -/
def bodyRow (opt : VboxOptions) (mc : List Nat) (vert vb : List Bool)
    (just : List Char) (sep ncols : Nat) (row : Row) : List Char :=
  [if opt.bold_outer = false then vertyC opt else vertyBold]
  ++ ((List.range (min ncols row.length)).map fun j =>
        bodyCell opt mc just row j ++ bodySep opt vert vb sep ncols row j).flatten
  ++ [if opt.bold_outer = false then vertyC opt else vertyBold]
  ++ ['\n']

/-- Bottom border (lib.rs lines 695-746); `lastRow` is `rrr[rrr.len() - 1]`. -/
def botBorder (opt : VboxOptions) (mc : List Nat) (vert vb : List Bool)
    (sep ncols : Nat) (lastRow : Row) : List Char :=
  [if opt.bold_outer = false then botleftC opt else botleftBold]
  ++ ((List.range ncols).map fun i =>
      List.replicate (mc.getD i 0 + (if i < ncols - 1 then sep else 0))
        (if opt.bold_outer = false then dashC opt else dashBold)
      ++ (if vert.getD i false then
            (if lastRow.length ≤ i + 1 then
               [if vb.getD i false = false then dashC opt else dashBold]
             else if lastRow.getD (i + 1) [] ≠ extCell then
               [if vb.getD i false = false then upteeC opt else upteeBold]
             else
               [if vb.getD i false = false then dashC opt else dashBold])
            ++ List.replicate sep (if vb.getD i false = false then dashC opt else dashBold)
          else [])).flatten
  ++ [if opt.bold_outer = false then botrightC opt else botrightBold]
  ++ ['\n']

/-- The whole buffer after the three raw-rendering sections: the previous
contents (the sections are pushed onto the existing `log`), then top border,
body rows, bottom border. -/
def renderRaw (opt : VboxOptions) (mc : List Nat) (vert vb : List Bool)
    (just : List Char) (sep ncols : Nat) (rowsR : List Row) (prev : List Char) :
    List Char :=
  prev
  ++ topBorder opt mc vert vb sep ncols
  ++ (rowsR.map (bodyRow opt mc vert vb just sep ncols)).flatten
  ++ botBorder opt mc vert vb sep ncols (rowsR.getD (rowsR.length - 1) [])

/-!
### Splitting into lines and smoothing (lib.rs lines 748-934)
-/

/-- Split on newlines, dropping empty segments (lib.rs lines 754-768). -/
def splitLinesGo : List Char → List Char → List (List Char)
  | [], z => if z.isEmpty then [] else [z]
  | c :: rest, z =>
    if c = '\n' then (if z.isEmpty then [] else [z]) ++ splitLinesGo rest []
    else splitLinesGo rest (z ++ [c])

/-- Rust `Vec::ends_with(&[c])` on a package. -/
def pkgEndsWith (p : List Char) (c : Char) : Bool := p.getLast? = some c

/-- Replace the package at `(i, j)`. -/
def setPkg (mat : List (List (List Char))) (i j : Nat) (v : List Char) :
    List (List (List Char)) :=
  mat.set i ((mat.getD i []).set j v)

/-- One cell of the smoothing pass (the body of the big `else if` chain,
lib.rs lines 792-921).  The chain's conditions are tested in source order;
the two places where the source indexes `mat[i - 1][j]` without a bounds
guard (the demote-to-dash arm of the up-tee branch when `i == 0`, and the
condition and body of the cross branch) are index panics. -/
def smoothCell (opt : VboxOptions) (mat : List (List (List Char))) (i j : Nat) :
    Except VboxError (List (List (List Char))) :=
  let dash := dashC opt
  let verty := vertyC opt
  let tee := teeC opt
  let uptee := upteeC opt
  let cross := crossC opt
  let lefty := leftyC opt
  let righty := rightyC opt
  let row := mat.getD i []
  let cur := row.getD j []
  let left := row.getD (j - 1) []
  let right := row.getD (j + 1) []
  let below := (mat.getD (i + 1) []).getD j []
  let aboveRow := mat.getD (i - 1) []
  let above := aboveRow.getD j []
  if 0 < j
      ∧ (left = [dash] ∨ left = [dashBold])
      ∧ (cur = [verty] ∨ cur = [vertyBold])
      ∧ j + 1 < row.length
      ∧ (right = [dash] ∨ right = [dashBold])
      ∧ i + 1 < mat.length
      ∧ j < (mat.getD (i + 1) []).length
      ∧ (pkgEndsWith below verty = true ∨ pkgEndsWith below vertyBold = true)
      ∧ 0 < i
      ∧ (aboveRow.length ≤ j
         ∨ (pkgEndsWith above verty = false ∧ pkgEndsWith above vertyBold = false))
      ∧ (aboveRow.length ≤ j ∨ (above ≠ [tee] ∧ above ≠ [teeBold])) then
    .ok (setPkg mat i j (if opt.bold_outer = false then [tee] else [teeBold]))
  else if 0 < j
      ∧ (left = [dash] ∨ left = [dashBold])
      ∧ (cur = [verty] ∨ cur = [vertyBold])
      ∧ j + 1 < row.length
      ∧ (right = [dash] ∨ right = [dashBold])
      ∧ i + 1 < mat.length
      ∧ j < (mat.getD (i + 1) []).length
      ∧ (pkgEndsWith below verty = false ∧ pkgEndsWith below vertyBold = false) then
    -- the body's inner test `i == 0 || ...` reads `mat[i - 1][j]`: an index
    -- panic when `i == 0` (usize underflow) or `j` exceeds the row above
    if i = 0 then .error .indexPanic
    else if aboveRow.length ≤ j then .error .indexPanic
    else if pkgEndsWith above verty = false ∧ pkgEndsWith above vertyBold = false then
      .ok (setPkg mat i j (if pkgEndsWith above vertyBold = true then [dashBold] else [dash]))
    else .ok (setPkg mat i j (if opt.bold_outer = false then [uptee] else [upteeBold]))
  else if 0 < j
      ∧ (left = [dash] ∨ left = [dashBold])
      ∧ (cur = [verty] ∨ cur = [vertyBold])
      ∧ j + 1 < row.length
      ∧ (right = [dash] ∨ right = [dashBold])
      ∧ 0 < i
      ∧ aboveRow.length ≤ j then
    -- evaluating the cross branch's condition reads `mat[i - 1][j]` unguarded
    .error .indexPanic
  else if 0 < j
      ∧ (left = [dash] ∨ left = [dashBold])
      ∧ (cur = [verty] ∨ cur = [vertyBold])
      ∧ j + 1 < row.length
      ∧ (right = [dash] ∨ right = [dashBold])
      ∧ 0 < i
      ∧ ((pkgEndsWith above verty = true ∨ pkgEndsWith above vertyBold = true)
         ∨ above = [tee] ∨ above = [teeBold]) then
    .ok (setPkg mat i j
      (if left = [dashBold] ∧ above = [vertyBold] then [crossBoldBold]
       else if left = [dashBold] then [crossBold2]
       else if above = [vertyBold] then [crossBold1]
       else [cross]))
  else if (cur = [verty] ∨ cur = [vertyBold])
      ∧ j + 1 < row.length
      ∧ (right = [dash] ∨ right = [dashBold])
      ∧ (j = 0 ∨ (pkgEndsWith left (dashC opt) = false ∧ pkgEndsWith left dashBold = false)) then
    .ok (setPkg mat i j
      (if opt.bold_outer = false then [lefty]
       else if right = [dashBold] then [leftyBoldBold]
       else [leftyBold1]))
  else if 0 < j
      ∧ (left = [dash] ∨ left = [dashBold])
      ∧ (cur = [verty] ∨ cur = [vertyBold])
      ∧ (j + 1 = row.length ∨ (right ≠ [dash] ∧ right ≠ [dashBold])) then
    .ok (setPkg mat i j
      (if opt.bold_outer = false then [righty]
       else if left = [dashBold] then [rightyBoldBold]
       else [rightyBold1]))
  else if 0 < j
      ∧ i + 1 < mat.length
      ∧ (cur = [tee] ∨ cur = [teeBold])
      ∧ (mat.length ≤ i + 1 ∨ (mat.getD (i + 1) []).length ≤ j
         ∨ (pkgEndsWith below verty = false ∧ pkgEndsWith below vertyBold = false)) then
    .ok (setPkg mat i j (if opt.bold_outer = true then [dashBold] else [dash]))
  else .ok mat

/-- The smoothing pass (lib.rs lines 791-922): every `(i, j)` in order, the
matrix updated in place. -/
def smoothMat (opt : VboxOptions) (mat : List (List (List Char))) :
    Except VboxError (List (List (List Char))) :=
  (List.range mat.length).foldlM
    (fun m i =>
      (List.range ((m.getD i []).length)).foldlM (fun m2 j => smoothCell opt m2 i j) m)
    mat

/-- Rebuild the buffer from the matrix (lib.rs lines 924-934): `log.clear()`
then every package of every line, a newline after each line. -/
def flushMat (mat : List (List (List Char))) : List Char :=
  (mat.map fun line => line.flatten ++ ['\n']).flatten

/-!
### The whole function
-/

/-- `print_tabular_vbox` (lib.rs lines 166-941).  `prev` is the contents of
the `log` buffer at entry (the function appends the raw render to it, splits
the *whole* buffer into lines for smoothing, and finally rewrites the buffer
from the smoothed matrix).  Returns the final buffer contents.  The
`debug_print` flag only produces `println!` output on stdout in the source
and never touches `log`, so it does not appear in the result. -/
def print_tabular_vbox (prev : List Char) (rows : List Row) (sep : Nat)
    (justify : List Char) (debug_print : Bool) (opt : VboxOptions) :
    Except VboxError (List Char) := do
  let (xw, vert, vb, just) ← solvedWidths rows sep justify
  let ncols := computeNcols rows
  let padded := rows.map (padRow xw vert just sep ncols)
  let mc := computeMaxcol padded ncols
  let rowsR := replaceLeadingExt padded (mc.getD 0 0)
  let raw := renderRaw opt mc vert vb just sep ncols rowsR prev
  let mat := (splitLinesGo raw []).map package_characters_with_escapes_char
  let mat2 ← smoothMat opt mat
  .ok (flushMat mat2)

/-!
### C10: zero-column tables panic in the solver
-/

theorem shapeCheckGo_all_eq (len0 : Nat) (l : List Row)
    (h : ∀ r ∈ l, r.length = len0) : ∀ i, shapeCheckGo len0 i l = none := by
  induction l with
  | nil => intro i; rfl
  | cons r rest ih =>
    intro i
    rw [shapeCheckGo]
    rw [if_neg (by simpa using h r (List.mem_cons_self r rest))]
    exact ih (fun r hr => h r (List.mem_cons_of_mem _ hr)) (i + 1)

theorem shapeCheck_replicate_nil (n : Nat) :
    shapeCheck (List.replicate n ([] : Row)) = none := by
  cases n with
  | zero => rfl
  | succ m =>
    rw [List.replicate_succ]
    show shapeCheckGo ([] : Row).length 1 (List.replicate m []) = none
    exact shapeCheckGo_all_eq _ _ (fun r hr => by rw [List.eq_of_mem_replicate hr]) 1

theorem computeNcols_replicate_nil (n : Nat) :
    computeNcols (List.replicate n ([] : Row)) = 0 := by
  unfold computeNcols
  have key : ∀ (m a : Nat),
      (List.replicate m ([] : Row)).foldl (fun n r => max n r.length) a = max a 0 := by
    intro m
    induction m with
    | zero => intro a; simp
    | succ k ih =>
      intro a
      rw [List.replicate_succ, List.foldl_cons, ih]
      simp
  simpa using key n 0

theorem buildCons_replicate_nil (n sep : Nat) (vert : List Bool) :
    buildCons (List.replicate n ([] : Row)) vert sep 0 = [] := by
  unfold buildCons
  have key : ∀ (m : Nat) (acc : List (List Bool × Nat)),
      (List.replicate m ([] : Row)).foldl
        (fun acc row => acc ++ rowConsGo vert sep 0 row 0) acc = acc := by
    intro m
    induction m with
    | zero => intro acc; rfl
    | succ k ih =>
      intro acc
      rw [List.replicate_succ, List.foldl_cons]
      have hempty : rowConsGo vert sep 0 ([] : Row) 0 = [] := rfl
      rw [hempty, List.append_nil]
      exact ih acc
  exact key n []

/-- With zero columns, `xw` is the empty vector and the loop's unconditional
`xw[best_i] += 1` with `best_i = 0` is out of range — whatever the
constraints are. -/
theorem solverRun_zero_cols (cons : List (List Bool × Nat)) :
    solverRun cons 0 = .error .indexPanic := by
  rw [solverRun_def]
  have hstep : solverStep cons (solverInit cons 0) = .error .indexPanic := by
    unfold solverStep solverStepWith
    have hxw : (solverInit cons 0).xw = [] := rfl
    rw [hxw]
    have hsel : selectBest cons (solverInit cons 0).sums (solverInit cons 0).deficit
        ([] : List Nat).length = (0, 0) := rfl
    rw [hsel]
    rfl
  rw [solverLoop, hstep]
  rfl

theorem solvedWidths_zero_cols (n sep : Nat) :
    solvedWidths (List.replicate n ([] : Row)) sep [] = .error .indexPanic := by
  unfold solvedWidths
  rw [shapeCheck_replicate_nil, computeNcols_replicate_nil]
  show (do
    let (vert, vb, just) ← parseJustify 0 []
    let cons := buildCons (List.replicate n ([] : Row)) vert sep 0
    let xw ← solverRun cons 0
    (.ok (xw, vert, vb, just) : Except VboxError _)) = .error .indexPanic
  have hpj : parseJustify 0 [] = .ok ([], [], []) := rfl
  rw [hpj]
  show solverRun (buildCons (List.replicate n ([] : Row)) [] sep 0) 0 >>=
      (fun xw => (.ok (xw, ([] : List Bool), ([] : List Bool), ([] : List Char)) :
        Except VboxError _)) = .error .indexPanic
  rw [solverRun_zero_cols]
  rfl

/-- **C10.** Calling `print_tabular_vbox` with an empty `rows` slice, or with
any number of rows all of length 0 (a zero-column table, with the matching
empty justify string), panics with an out-of-range index in the width-solver
loop (`xw[best_i]` with `best_i = 0` on the empty width vector) — it neither
returns normally nor reports a descriptive shape error. -/
theorem print_tabular_vbox_zero_cols (n sep : Nat) (prev : List Char)
    (debug : Bool) (opt : VboxOptions) :
    print_tabular_vbox prev (List.replicate n []) sep [] debug opt
      = .error .indexPanic := by
  unfold print_tabular_vbox
  rw [solvedWidths_zero_cols]
  rfl

/-!
### C3: mismatched row lengths
-/

theorem shapeCheckGo_first_bad (len0 : Nat) :
    ∀ (l : List Row) (start d : Nat), d < l.length →
      (l.getD d []).length ≠ len0 →
      (∀ k, k < d → (l.getD k []).length = len0) →
      shapeCheckGo len0 start l
        = some (.shape (start + d) (l.getD d []).length len0) := by
  intro l
  induction l with
  | nil =>
    intro start d hd
    simp at hd
  | cons r rest ih =>
    intro start d hd hne hmin
    cases d with
    | zero =>
      rw [shapeCheckGo]
      rw [if_pos (by simpa using hne)]
      simp
    | succ d' =>
      have hr : r.length = len0 := by simpa using hmin 0 (Nat.succ_pos d')
      rw [shapeCheckGo, if_neg (by simpa using hr)]
      have := ih (start + 1) d' (by simpa using hd) (by simpa using hne)
        (fun k hk => by simpa using hmin (k + 1) (by omega))
      rw [this]
      have harith : start + 1 + d' = start + (d' + 1) := by omega
      rw [harith]
      rfl

/-- **C3.**  Whenever some row's length differs from row 0's, the function
fails at the very first stage — before anything is appended to the buffer —
with the shape error naming the first offending row index `i` and the two
lengths `rows[i].len()` and `rows[0].len()`; no other failure or output can
occur. -/
theorem print_tabular_vbox_shape_error (prev : List Char) (rows : List Row)
    (sep : Nat) (justify : List Char) (debug : Bool) (opt : VboxOptions) (i : Nat)
    (h1 : 1 ≤ i) (h2 : i < rows.length)
    (hne : (rows.getD i []).length ≠ (rows.getD 0 []).length)
    (hmin : ∀ k, 1 ≤ k → k < i → (rows.getD k []).length = (rows.getD 0 []).length) :
    print_tabular_vbox prev rows sep justify debug opt
      = .error (.shape i (rows.getD i []).length (rows.getD 0 []).length) := by
  obtain ⟨r0, rest, rfl⟩ : ∃ r0 rest, rows = r0 :: rest := by
    cases rows with
    | nil => simp at h2
    | cons a l => exact ⟨a, l, rfl⟩
  obtain ⟨d, rfl⟩ : ∃ d, i = d + 1 := ⟨i - 1, by omega⟩
  have hget : ∀ k, ((r0 :: rest).getD (k + 1) []) = rest.getD k [] := by
    intro k
    rfl
  have hget0 : ((r0 :: rest).getD 0 []) = r0 := rfl
  have hsc : shapeCheck (r0 :: rest)
      = some (.shape (d + 1) (rest.getD d []).length r0.length) := by
    show shapeCheckGo r0.length 1 rest = _
    have := shapeCheckGo_first_bad r0.length rest 1 d
      (by simpa using h2)
      (by rw [← hget d, ← hget0]; exact hne)
      (fun k hk => by rw [← hget k, ← hget0]; exact hmin (k + 1) (by omega) (by omega))
    rw [this]
    have harith : 1 + d = d + 1 := by omega
    rw [harith]
  unfold print_tabular_vbox solvedWidths
  rw [hsc, hget, hget0]
  rfl

/-- Witness for `print_tabular_vbox_shape_error`: rows `[["a"], []]` — row 1
has length 0, row 0 has length 1. -/
theorem print_tabular_vbox_shape_error_witness :
    1 ≤ 1 ∧ 1 < ([[['a']], ([] : Row)] : List Row).length ∧
    print_tabular_vbox [] [[['a']], []] 0 ['l'] false ⟨false, false⟩
      = .error (.shape 1 0 1) := by
  refine ⟨by decide, by decide, ?_⟩
  have := print_tabular_vbox_shape_error [] [[['a']], []] 0 ['l'] false
    ⟨false, false⟩ 1 (by decide) (by decide) (by decide) (fun k hk1 hk2 => by omega)
  simpa using this

/-!
### C2: the output depends on the prior buffer contents
-/

/-- **C2 counterexample.**  Two calls with identical table arguments but
different prior buffer contents leave different final contents: the function
appends to the existing buffer and then rebuilds the whole buffer from it,
so the prior text survives into (and participates in) the result. -/
theorem print_tabular_vbox_prev_cex :
    print_tabular_vbox ['x'] [[['a']]] 0 ['l'] false ⟨false, false⟩
      = .ok "x┌─┐\n│a│\n└─┘\n".data ∧
    print_tabular_vbox [] [[['a']]] 0 ['l'] false ⟨false, false⟩
      = .ok "┌─┐\n│a│\n└─┘\n".data ∧
    "x┌─┐\n│a│\n└─┘\n".data ≠ "┌─┐\n│a│\n└─┘\n".data := by
  refine ⟨?_, ?_, ?_⟩
  · rfl
  · rfl
  · decide

/-- **C2 amended.**  The final buffer contents are a function of the prior
buffer contents together with the table arguments `(rows, sep, justify,
options)` — and of nothing else: calls agreeing on those (the `debug_print`
flag may differ, it only prints to stdout) leave byte-identical contents.
Byte-identity *regardless* of the prior contents fails (see the
counterexample); it holds whenever the buffer is empty, or equal, before
each call. -/
theorem print_tabular_vbox_deterministic (prev1 prev2 : List Char)
    (rows : List Row) (sep : Nat) (justify : List Char) (debug1 debug2 : Bool)
    (opt : VboxOptions) (h : prev1 = prev2) :
    print_tabular_vbox prev1 rows sep justify debug1 opt
      = print_tabular_vbox prev2 rows sep justify debug2 opt := by
  subst h
  rfl

/-- Witness for `print_tabular_vbox_deterministic`: same buffer and table,
different `debug_print`. -/
theorem print_tabular_vbox_deterministic_witness :
    print_tabular_vbox ['x'] [[['a']]] 0 ['l'] true ⟨false, false⟩
      = print_tabular_vbox ['x'] [[['a']]] 0 ['l'] false ⟨false, false⟩ :=
  print_tabular_vbox_deterministic ['x'] ['x'] [[['a']]] 0 ['l'] true false
    ⟨false, false⟩ rfl

/-!
### C8: padding sides
-/

theorem extTargetF_snd_true (xw : List Nat) (vert : List Bool) (sep ncols : Nat)
    (row : Row) : ∀ fuel k t,
    (extTargetF xw vert sep ncols row fuel k (t, true)).2 = true := by
  intro fuel
  induction fuel with
  | zero => intro k t; rfl
  | succ fuel ih =>
    intro k t
    rw [extTargetF]
    split
    · exact ih _ _
    · rfl

/-- `exting` is set exactly when the cell is directly followed by a
continuation cell. -/
theorem extTarget_exting_iff (xw : List Nat) (vert : List Bool) (sep ncols : Nat)
    (row : Row) (j : Nat) :
    (extTarget xw vert sep ncols row j).2 = true ↔
      (j + 1 < ncols ∧ row.getD (j + 1) [] = extCell) := by
  unfold extTarget
  constructor
  · intro h
    by_contra hc
    cases hfuel : ncols - (j + 1) with
    | zero =>
      rw [hfuel] at h
      simp [extTargetF] at h
    | succ m =>
      rw [hfuel, extTargetF, if_neg hc] at h
      simp at h
  · rintro ⟨h1, h2⟩
    obtain ⟨m, hm⟩ : ∃ m, ncols - (j + 1) = m + 1 := ⟨ncols - (j + 1) - 1, by omega⟩
    rw [hm, extTargetF, if_pos ⟨h1, h2⟩]
    exact extTargetF_snd_true xw vert sep ncols row m (j + 2) _

/-- **C8.**  In the padding pass, a literal cell that heads a multi-column
span (`exting`, i.e. the next cell is a continuation cell) whose allocated
span width exceeds its visible width receives all of its padding on the
right — with no condition on the column's declared justification, so also
when it is `'r'`; a non-spanning literal cell is padded on the right exactly
when its column is `'l'`-justified, and on the left when `'r'`-justified. -/
theorem padCell_justification (xw : List Nat) (vert : List Bool) (just : List Char)
    (sep ncols : Nat) (row : Row) (j : Nat)
    (hlit : row.getD j [] ≠ extCell)
    (hrule : startsWithCell (row.getD j []) hlineCell = false) :
    ((extTarget xw vert sep ncols row j).2 = true ↔
        j + 1 < ncols ∧ row.getD (j + 1) [] = extCell) ∧
    ((extTarget xw vert sep ncols row j).2 = true →
      visible_width (row.getD j []) < (extTarget xw vert sep ncols row j).1 →
      padCell xw vert just sep ncols row j
        = row.getD j [] ++ List.replicate
            ((extTarget xw vert sep ncols row j).1
              - visible_width (row.getD j [])) ' ') ∧
    ((extTarget xw vert sep ncols row j).2 = false →
      visible_width (row.getD j []) < (extTarget xw vert sep ncols row j).1 →
      just.getD j ' ' = 'l' →
      padCell xw vert just sep ncols row j
        = row.getD j [] ++ List.replicate
            ((extTarget xw vert sep ncols row j).1
              - visible_width (row.getD j [])) ' ') ∧
    ((extTarget xw vert sep ncols row j).2 = false →
      visible_width (row.getD j []) < (extTarget xw vert sep ncols row j).1 →
      just.getD j ' ' = 'r' →
      padCell xw vert just sep ncols row j
        = List.replicate
            ((extTarget xw vert sep ncols row j).1
              - visible_width (row.getD j [])) ' ' ++ row.getD j []) := by
  have h0 : ¬(row.getD j [] = extCell ∨
      startsWithCell (row.getD j []) hlineCell = true) := by
    rintro (h | h)
    · exact hlit h
    · rw [hrule] at h
      exact Bool.false_ne_true h
  refine ⟨extTarget_exting_iff xw vert sep ncols row j, ?_, ?_, ?_⟩
  · intro hext hlt
    unfold padCell
    rw [if_neg (by simpa using h0), if_pos hlt, if_pos (Or.inr hext)]
  · intro _ hlt hl
    unfold padCell
    rw [if_neg (by simpa using h0), if_pos hlt, if_pos (Or.inl hl)]
  · intro hext hlt hr
    unfold padCell
    rw [if_neg (by simpa using h0), if_pos hlt, if_neg ?_]
    rintro (h | h)
    · rw [hr] at h
      exact absurd h (by decide)
    · rw [hext] at h
      exact Bool.false_ne_true h

/-- Witness for `padCell_justification`: a spanning head in an
`'r'`-justified column is right-padded; non-spanning cells pad right under
`'l'` and left under `'r'`. -/
theorem padCell_justification_witness :
    padCell [2, 2] [false, false] ['r', 'r'] 0 2 [['a'], extCell] 0
      = ['a', ' ', ' ', ' '] ∧
    padCell [2, 2] [false, false] ['l', 'l'] 0 2 [['a'], ['b']] 0
      = ['a', ' '] ∧
    padCell [2, 2] [false, false] ['r', 'r'] 0 2 [['a'], ['b']] 0
      = [' ', 'a'] := by
  refine ⟨?_, ?_, ?_⟩
  · have h := (padCell_justification [2, 2] [false, false] ['r', 'r'] 0 2
      [['a'], extCell] 0 (by decide) (by decide)).2.1 (by decide) (by decide)
    rw [h]
    decide
  · have h := (padCell_justification [2, 2] [false, false] ['l', 'l'] 0 2
      [['a'], ['b']] 0 (by decide) (by decide)).2.2.1 (by decide) (by decide) (by decide)
    rw [h]
    decide
  · have h := (padCell_justification [2, 2] [false, false] ['r', 'r'] 0 2
      [['a'], ['b']] 0 (by decide) (by decide)).2.2.2 (by decide) (by decide) (by decide)
    rw [h]
    decide

/-!
### C1: resolved widths dominate non-spanning content widths

The rendered width of column `j` is the recomputed `maxcol[j]`, taken over
the padded rows; padding never shrinks a cell, never turns a literal cell
into a sentinel and never creates a rule prefix, so every qualifying cell of
the original table is still scanned and its visible width can only have
grown.
-/

theorem solvedWidths_ok_shape {rows : List Row} {sep : Nat} {justify : List Char}
    {res : List Nat × List Bool × List Bool × List Char}
    (h : solvedWidths rows sep justify = .ok res) : shapeCheck rows = none := by
  unfold solvedWidths at h
  cases hsc : shapeCheck rows with
  | none => rfl
  | some e =>
    rw [hsc] at h
    exact absurd h (by simp)

theorem shapeCheckGo_none_mem (len0 : Nat) :
    ∀ (l : List Row) (i : Nat), shapeCheckGo len0 i l = none →
      ∀ r ∈ l, r.length = len0 := by
  intro l
  induction l with
  | nil => intro i _ r hr; simp at hr
  | cons r0 rest ih =>
    intro i h r hr
    rw [shapeCheckGo] at h
    by_cases hr0 : r0.length ≠ len0
    · rw [if_pos hr0] at h
      exact absurd h (by simp)
    · rw [if_neg hr0] at h
      rcases List.mem_cons.mp hr with rfl | hm
      · omega
      · exact ih (i + 1) h r hm

theorem shapeCheck_none_lengths (rows : List Row) (h : shapeCheck rows = none) :
    ∀ r ∈ rows, r.length = (rows.getD 0 []).length := by
  cases rows with
  | nil => intro r hr; simp at hr
  | cons r0 rest =>
    intro r hr
    rcases List.mem_cons.mp hr with rfl | hm
    · rfl
    · exact shapeCheckGo_none_mem r0.length rest 1 h r hm

theorem computeNcols_eq (rows : List Row) (L : Nat)
    (hall : ∀ r ∈ rows, r.length = L) (hne : rows ≠ []) :
    computeNcols rows = L := by
  unfold computeNcols
  have key : ∀ (l : List Row) (a : Nat), (∀ r ∈ l, r.length = L) →
      l.foldl (fun n r => max n r.length) a = if l.isEmpty then a else max a L := by
    intro l
    induction l with
    | nil => intro a _; rfl
    | cons r0 rest ih =>
      intro a hla
      rw [List.foldl_cons, ih _ (fun r hr => hla r (List.mem_cons_of_mem _ hr)),
        hla r0 (List.mem_cons_self _ _)]
      cases rest with
      | nil => simp
      | cons x xs =>
        simp only [List.isEmpty_cons, Bool.false_eq_true, if_false]
        omega
  rw [key rows 0 hall]
  cases rows with
  | nil => exact absurd rfl hne
  | cons r0 rest => simp

theorem getD_map_of_lt {α β : Type} (f : α → β) (l : List α) (i : Nat) (d : β)
    (d' : α) (h : i < l.length) : (l.map f).getD i d = f (l.getD i d') := by
  rw [List.getD_eq_getElem _ _ (by simpa using h), List.getD_eq_getElem _ _ h]
  simp

/-- Every padded cell is the original cell with some spaces prepended and
appended (possibly none). -/
theorem padCell_shape (xw : List Nat) (vert : List Bool) (just : List Char)
    (sep ncols : Nat) (row : Row) (j : Nat) :
    ∃ a b, padCell xw vert just sep ncols row j
      = List.replicate a ' ' ++ row.getD j [] ++ List.replicate b ' ' := by
  unfold padCell
  dsimp only
  split
  · exact ⟨0, 0, by simp⟩
  · split
    · split
      · exact ⟨0, (extTarget xw vert sep ncols row j).1
          - visible_width (row.getD j []), by simp⟩
      · exact ⟨(extTarget xw vert sep ncols row j).1
          - visible_width (row.getD j []), 0, by simp⟩
    · exact ⟨0, 0, by simp⟩

theorem space_not_mem_sentinels :
    ' ' ∉ extCell ∧ ' ' ∉ hlineCell ∧ ' ' ∉ hlineBoldCell := by
  decide

/-- Space padding cannot produce a sentinel string from a non-sentinel. -/
theorem pad_eq_of_no_space {c s : Cell} {a b : Nat} (hsp : ' ' ∉ s)
    (h : List.replicate a ' ' ++ c ++ List.replicate b ' ' = s) :
    a = 0 ∧ b = 0 ∧ c = s := by
  rcases Nat.eq_zero_or_pos a with ha | ha
  · rcases Nat.eq_zero_or_pos b with hb | hb
    · subst ha; subst hb
      simp at h
      exact ⟨rfl, rfl, h⟩
    · exfalso
      apply hsp
      rw [← h]
      exact List.mem_append_right _ (List.mem_replicate.mpr ⟨by omega, rfl⟩)
  · exfalso
    apply hsp
    rw [← h]
    exact List.mem_append_left _
      (List.mem_append_left _ (List.mem_replicate.mpr ⟨by omega, rfl⟩))

/-- If a space-padded string has a space-free prefix, the prefix already sat
on the unpadded string. -/
theorem startsWithCell_append_spaces (p : List Char) :
    ∀ (c : Cell) (b : Nat), startsWithCell (c ++ List.replicate b ' ') p = true →
      ' ' ∈ p ∨ startsWithCell c p = true := by
  induction p with
  | nil => intro c b _; right; cases c <;> rfl
  | cons q p' ih =>
    intro c b h
    cases c with
    | nil =>
      cases b with
      | zero => simp [startsWithCell] at h
      | succ b' =>
        rw [List.nil_append, List.replicate_succ, startsWithCell, Bool.and_eq_true] at h
        left
        have : (' ' : Char) = q := by
          have := h.1
          exact of_decide_eq_true this
        rw [← this]
        exact List.mem_cons_self _ _
    | cons d c' =>
      rw [List.cons_append, startsWithCell, Bool.and_eq_true] at h
      rcases ih c' b h.2 with hmem | hsw
      · exact Or.inl (List.mem_cons_of_mem _ hmem)
      · right
        rw [startsWithCell, Bool.and_eq_true]
        exact ⟨h.1, hsw⟩

theorem padded_ne_ext {c : Cell} (a b : Nat) (hc : c ≠ extCell) :
    List.replicate a ' ' ++ c ++ List.replicate b ' ' ≠ extCell := by
  intro h
  obtain ⟨_, _, hcs⟩ := pad_eq_of_no_space space_not_mem_sentinels.1 h
  exact hc hcs

theorem padded_not_hline {c : Cell} (a b : Nat)
    (hc : startsWithCell c hlineCell = false) :
    startsWithCell (List.replicate a ' ' ++ c ++ List.replicate b ' ') hlineCell
      = false := by
  cases a with
  | zero =>
    simp only [List.replicate, List.nil_append]
    cases hsw : startsWithCell (c ++ List.replicate b ' ') hlineCell with
    | false => rfl
    | true =>
      rcases startsWithCell_append_spaces hlineCell c b hsw with hmem | h2
      · exact absurd hmem space_not_mem_sentinels.2.1
      · rw [hc] at h2
        exact absurd h2 (by simp)
  | succ a' =>
    rw [List.replicate_succ, List.cons_append, List.cons_append]
    show startsWithCell (' ' :: _) ('\\' :: "hline".data) = false
    rw [startsWithCell]
    simp

theorem visLoopP_fst_mono (l : List Char) : ∀ s : Nat × Bool, s.1 ≤ (visLoopP s l).1 := by
  induction l with
  | nil => intro s; exact le_refl _
  | cons c cs ih =>
    intro s
    obtain ⟨n, e⟩ := s
    simp only [visLoopP]
    split
    · exact ih (n, e)
    · split
      · exact ih (n, true)
      · split
        · exact ih (n, false)
        · split
          · exact Nat.le_trans (by omega) (ih (n + 2, e))
          · exact Nat.le_trans (by omega) (ih (n + 1, e))

theorem visLoopP_shift (l : List Char) : ∀ (n : Nat) (e : Bool),
    visLoopP (n, e) l = ((visLoopP (0, e) l).1 + n, (visLoopP (0, e) l).2) := by
  induction l with
  | nil => intro n e; simp [visLoopP]
  | cons c cs ih =>
    intro n e
    simp only [visLoopP]
    split
    · exact ih n e
    · split
      · exact ih n true
      · split
        · exact ih n false
        · split
          · rw [ih (n + 2) e, ih 2 e]
            have harith : (visLoopP (0, e) cs).1 + (n + 2)
                = (visLoopP (0, e) cs).1 + 2 + n := by omega
            rw [harith]
          · rw [ih (n + 1) e, ih 1 e]
            have harith : (visLoopP (0, e) cs).1 + (n + 1)
                = (visLoopP (0, e) cs).1 + 1 + n := by omega
            rw [harith]

theorem visLoopP_replicate_space (a : Nat) :
    ∀ n : Nat, visLoopP (n, false) (List.replicate a ' ') = (n + a, false) := by
  induction a with
  | zero => intro n; simp [visLoopP]
  | succ a' ih =>
    intro n
    rw [List.replicate_succ,
      visLoopP_cons_other n (List.replicate a' ' ') (by decide) (by decide), ih (n + 1)]
    have : n + 1 + a' = n + (a' + 1) := by omega
    rw [this]

/-- Space padding never shrinks the scan value. -/
theorem visLoopP_pad_ge (c : Cell) (a b : Nat) :
    (visLoopP (0, false) c).1
      ≤ (visLoopP (0, false)
          (List.replicate a ' ' ++ c ++ List.replicate b ' ')).1 := by
  rw [List.append_assoc, visLoopP_append, visLoopP_replicate_space a 0,
    visLoopP_append]
  have h1 : (visLoopP (visLoopP (0 + a, false) c)
      (List.replicate b ' ')).1 ≥ (visLoopP (0 + a, false) c).1 :=
    visLoopP_fst_mono _ _
  have h2 : (visLoopP (0 + a, false) c).1 = (visLoopP (0, false) c).1 + a := by
    have := visLoopP_shift c a false
    simp at this ⊢
    rw [this]
  omega

/-- Space padding never shrinks the visible width of a qualifying literal
cell. -/
theorem visible_width_pad_ge (c : Cell) (a b : Nat) (hc1 : c ≠ extCell)
    (hc2 : startsWithCell c hlineCell = false) :
    visible_width c
      ≤ visible_width (List.replicate a ' ' ++ c ++ List.replicate b ' ') := by
  have hch : c ≠ hlineCell := by
    intro h
    rw [h] at hc2
    exact absurd hc2 (by decide)
  have hchb : c ≠ hlineBoldCell := by
    intro h
    rw [h] at hc2
    exact absurd hc2 (by decide)
  have hpad_sent : ¬(List.replicate a ' ' ++ c ++ List.replicate b ' ' = extCell ∨
      List.replicate a ' ' ++ c ++ List.replicate b ' ' = hlineCell ∨
      List.replicate a ' ' ++ c ++ List.replicate b ' ' = hlineBoldCell) := by
    rintro (h | h | h)
    · exact hc1 (pad_eq_of_no_space space_not_mem_sentinels.1 h).2.2
    · exact hch (pad_eq_of_no_space space_not_mem_sentinels.2.1 h).2.2
    · exact hchb (pad_eq_of_no_space space_not_mem_sentinels.2.2 h).2.2
  unfold visible_width
  rw [if_neg (by tauto), if_neg hpad_sent]
  exact visLoopP_pad_ge c a b

theorem getD_set_general (l : List Nat) (j t v : Nat) :
    (l.set j v).getD t 0 = if t = j ∧ j < l.length then v else l.getD t 0 := by
  by_cases h1 : t = j
  · subst h1
    by_cases h2 : t < l.length
    · rw [if_pos ⟨rfl, h2⟩, List.getD_eq_getElem _ _ (by simpa using h2)]
      exact List.getElem_set_self _
    · rw [if_neg (by tauto), List.set_eq_of_length_le (by omega)]
  · rw [if_neg (by tauto)]
    by_cases h2 : t < l.length
    · rw [List.getD_eq_getElem _ _ (by simpa using h2), List.getD_eq_getElem _ _ h2]
      exact List.getElem_set_ne (fun hh => h1 hh.symm) _
    · rw [List.getD_eq_default _ _ (by simpa using Nat.le_of_not_lt h2),
        List.getD_eq_default _ _ (Nat.le_of_not_lt h2)]

theorem mcStep_length (row : Row) (mc : List Nat) (j : Nat) :
    (mcStep row mc j).length = mc.length := by
  unfold mcStep
  split
  · rfl
  · split
    · rfl
    · simp

theorem mcStep_getD_le (row : Row) (mc : List Nat) (j t : Nat) :
    mc.getD t 0 ≤ (mcStep row mc j).getD t 0 := by
  unfold mcStep
  split
  · exact le_refl _
  · split
    · exact le_refl _
    · rw [getD_set_general]
      split
      · rename_i hcond
        rw [hcond.1]
        exact le_max_left _ _
      · exact le_refl _

theorem mcStep_hit (row : Row) (mc : List Nat) (j : Nat) (hj : j < mc.length)
    (hskip1 : ¬(j < row.length - 1 ∧ row.getD (j + 1) [] = extCell))
    (hskip2 : ¬(row.getD j [] = extCell ∨
      startsWithCell (row.getD j []) hlineCell = true)) :
    visible_width (row.getD j []) ≤ (mcStep row mc j).getD j 0 := by
  unfold mcStep
  rw [if_neg hskip1, if_neg hskip2, getD_set_general, if_pos ⟨rfl, hj⟩]
  exact le_max_right _ _

theorem foldl_mcStep_length (row : Row) (js : List Nat) :
    ∀ mc : List Nat, (js.foldl (mcStep row) mc).length = mc.length := by
  induction js with
  | nil => intro mc; rfl
  | cons a js ih =>
    intro mc
    rw [List.foldl_cons, ih, mcStep_length]

theorem foldl_mcStep_getD_le (row : Row) (js : List Nat) :
    ∀ (mc : List Nat) (t : Nat),
      mc.getD t 0 ≤ (js.foldl (mcStep row) mc).getD t 0 := by
  induction js with
  | nil => intro mc t; exact le_refl _
  | cons a js ih =>
    intro mc t
    rw [List.foldl_cons]
    exact Nat.le_trans (mcStep_getD_le row mc a t) (ih _ t)

theorem foldl_mcStep_hit (row : Row) (js : List Nat) (j : Nat)
    (hskip1 : ¬(j < row.length - 1 ∧ row.getD (j + 1) [] = extCell))
    (hskip2 : ¬(row.getD j [] = extCell ∨
      startsWithCell (row.getD j []) hlineCell = true)) :
    ∀ mc : List Nat, j ∈ js → j < mc.length →
      visible_width (row.getD j []) ≤ (js.foldl (mcStep row) mc).getD j 0 := by
  induction js with
  | nil => intro mc hm; simp at hm
  | cons a js ih =>
    intro mc hm hj
    rw [List.foldl_cons]
    rcases List.mem_cons.mp hm with rfl | hmem
    · exact Nat.le_trans (mcStep_hit row mc j hj hskip1 hskip2)
        (foldl_mcStep_getD_le row js _ j)
    · exact ih _ hmem (by rw [mcStep_length]; exact hj)

theorem maxcolRowUpd_length (mc : List Nat) (row : Row) :
    (maxcolRowUpd mc row).length = mc.length :=
  foldl_mcStep_length row _ mc

theorem maxcolRowUpd_getD_le (mc : List Nat) (row : Row) (t : Nat) :
    mc.getD t 0 ≤ (maxcolRowUpd mc row).getD t 0 :=
  foldl_mcStep_getD_le row _ mc t

theorem maxcolRowUpd_hit (mc : List Nat) (row : Row) (j : Nat)
    (hrow : j < row.length) (hj : j < mc.length)
    (hskip1 : ¬(j < row.length - 1 ∧ row.getD (j + 1) [] = extCell))
    (hskip2 : ¬(row.getD j [] = extCell ∨
      startsWithCell (row.getD j []) hlineCell = true)) :
    visible_width (row.getD j []) ≤ (maxcolRowUpd mc row).getD j 0 :=
  foldl_mcStep_hit row _ j hskip1 hskip2 mc (List.mem_range.mpr hrow) hj

theorem foldl_maxcolRowUpd_length (rs : List Row) :
    ∀ mc : List Nat, (rs.foldl maxcolRowUpd mc).length = mc.length := by
  induction rs with
  | nil => intro mc; rfl
  | cons r rs ih =>
    intro mc
    rw [List.foldl_cons, ih, maxcolRowUpd_length]

theorem foldl_maxcolRowUpd_getD_le (rs : List Row) :
    ∀ (mc : List Nat) (t : Nat),
      mc.getD t 0 ≤ (rs.foldl maxcolRowUpd mc).getD t 0 := by
  induction rs with
  | nil => intro mc t; exact le_refl _
  | cons r rs ih =>
    intro mc t
    rw [List.foldl_cons]
    exact Nat.le_trans (maxcolRowUpd_getD_le mc r t) (ih _ t)

/-- The recomputed `maxcol[j]` dominates the visible width of every cell the
scan does not skip. -/
theorem computeMaxcol_hit (rows : List Row) (ncols : Nat) (r : Row) (j : Nat)
    (hr : r ∈ rows) (hrow : j < r.length) (hj : j < ncols)
    (hskip1 : ¬(j < r.length - 1 ∧ r.getD (j + 1) [] = extCell))
    (hskip2 : ¬(r.getD j [] = extCell ∨
      startsWithCell (r.getD j []) hlineCell = true)) :
    visible_width (r.getD j []) ≤ (computeMaxcol rows ncols).getD j 0 := by
  obtain ⟨l1, l2, rfl⟩ := List.append_of_mem hr
  unfold computeMaxcol
  rw [List.foldl_append, List.foldl_cons]
  have hlen : (l1.foldl maxcolRowUpd (List.replicate ncols 0)).length = ncols := by
    rw [foldl_maxcolRowUpd_length]
    simp
  refine Nat.le_trans
    (maxcolRowUpd_hit (l1.foldl maxcolRowUpd (List.replicate ncols 0)) r j hrow
      (by omega) hskip1 hskip2) ?_
  exact foldl_maxcolRowUpd_getD_le l2 _ j

/-- **C1.**  For every table the function accepts (the shape and justify
checks pass and the solver returns widths `xw`), the resolved width of every
column `j` — the recomputed `maxcol[j]` over the padded rows, at which the
renderer draws column `j` — is at least the visible width of every literal
cell of column `j` that is not a rule cell and is not followed by a
continuation cell. -/
theorem resolved_width_ge (rows : List Row) (sep : Nat) (justify : List Char)
    (xw : List Nat) (vert vb : List Bool) (just : List Char)
    (h : solvedWidths rows sep justify = .ok (xw, vert, vb, just))
    (i j : Nat) (hi : i < rows.length) (hj : j < (rows.getD i []).length)
    (hext : ¬(j + 1 < (rows.getD i []).length ∧
      (rows.getD i []).getD (j + 1) [] = extCell))
    (hlit : (rows.getD i []).getD j [] ≠ extCell)
    (hrule : startsWithCell ((rows.getD i []).getD j []) hlineCell = false) :
    visible_width ((rows.getD i []).getD j [])
      ≤ (computeMaxcol (rows.map (padRow xw vert just sep (computeNcols rows)))
          (computeNcols rows)).getD j 0 := by
  have hsc := solvedWidths_ok_shape h
  have hlens := shapeCheck_none_lengths rows hsc
  have hrowsne : rows ≠ [] := by
    intro hnil
    rw [hnil] at hi
    simp at hi
  have hncols : computeNcols rows = (rows.getD 0 []).length :=
    computeNcols_eq rows _ hlens hrowsne
  set ncols := computeNcols rows with hncolsdef
  set origRow := rows.getD i [] with horig
  have horigmem : origRow ∈ rows := by
    rw [horig, List.getD_eq_getElem _ _ hi]
    exact List.getElem_mem hi
  have horiglen : origRow.length = ncols := by
    rw [hncols]
    exact hlens origRow horigmem
  set prow := padRow xw vert just sep ncols origRow with hprow
  have hprowlen : prow.length = ncols := by
    rw [hprow]
    unfold padRow
    simp
  have hprowmem : prow ∈ rows.map (padRow xw vert just sep ncols) :=
    List.mem_map_of_mem _ horigmem
  have hjn : j < ncols := by omega
  -- the padded cell at j and its shape
  have hpj : prow.getD j [] = padCell xw vert just sep ncols origRow j := by
    rw [hprow]
    unfold padRow
    exact getD_map_range _ ncols j [] hjn
  obtain ⟨a, b, hshape⟩ := padCell_shape xw vert just sep ncols origRow j
  -- the padded cell still qualifies for the maxcol scan
  have hskip2 : ¬(prow.getD j [] = extCell ∨
      startsWithCell (prow.getD j []) hlineCell = true) := by
    rw [hpj, hshape]
    rintro (hc | hc)
    · exact padded_ne_ext a b hlit hc
    · rw [padded_not_hline a b hrule] at hc
      exact absurd hc (by simp)
  have hskip1 : ¬(j < prow.length - 1 ∧ prow.getD (j + 1) [] = extCell) := by
    rintro ⟨hlt, hcell⟩
    rw [hprowlen] at hlt
    have hj1n : j + 1 < ncols := by omega
    have hnext : (rows.getD i []).getD (j + 1) [] ≠ extCell := by
      intro hcontr
      exact hext ⟨by omega, hcontr⟩
    have hpj1 : prow.getD (j + 1) [] = padCell xw vert just sep ncols origRow (j + 1) := by
      rw [hprow]
      unfold padRow
      exact getD_map_range _ ncols (j + 1) [] hj1n
    obtain ⟨a1, b1, hshape1⟩ := padCell_shape xw vert just sep ncols origRow (j + 1)
    rw [hpj1, hshape1] at hcell
    exact padded_ne_ext a1 b1 (by rw [← horig] at hnext; exact hnext) hcell
  have hvis : visible_width (origRow.getD j []) ≤ visible_width (prow.getD j []) := by
    rw [hpj, hshape]
    exact visible_width_pad_ge _ a b hlit hrule
  refine Nat.le_trans hvis ?_
  exact computeMaxcol_hit (rows.map (padRow xw vert just sep ncols)) ncols prow j
    hprowmem (by omega) hjn hskip1 hskip2

/-- Witness for `resolved_width_ge`: the table `[["ab", "c"]]` with `sep = 0`,
`justify = "l|l"` solves to widths `[2, 1]` and resolved widths `[2, 1]`;
cell `(0,0)` has visible width `2 ≤ 2`. -/
theorem resolved_width_ge_witness :
    solvedWidths [[['a', 'b'], ['c']]] 0 ['l', '|', 'l']
      = .ok ([2, 1], [true, false], [false, false], ['l', 'l']) ∧
    visible_width (([[['a', 'b'], ['c']]].getD 0 []).getD 0 [])
      ≤ (computeMaxcol
          ([[['a', 'b'], ['c']]].map
            (padRow [2, 1] [true, false] ['l', 'l'] 0
              (computeNcols [[['a', 'b'], ['c']]])))
          (computeNcols [[['a', 'b'], ['c']]])).getD 0 0 := by
  refine ⟨rfl, ?_⟩
  exact resolved_width_ge [[['a', 'b'], ['c']]] 0 ['l', '|', 'l']
    [2, 1] [true, false] [false, false] ['l', 'l'] rfl 0 0
    (by decide) (by decide) (by decide) (by decide) (by decide)

end Tables
